import Mathlib

/-!
# Verification of the Obsidian-AI-Formatter text-cleaning core

A shallow embedding of the text-normalization pipeline of `src/main.ts`
(`FormatCleanerPlugin`): the pattern compiler (`escapeRegExp`,
`compilePatterns`), the replacement engine and paragraph pipeline
(`cleanFormat`), the heading formatter (`formatAsHeading`) and the ad-hoc
pattern validation (`isValidRegex`, `validateAndApplyRegex`).

Strings are modelled as lists of characters (code points).  The regular
expressions compiled from user rules in `compilePatterns` are modelled by a
small regex engine (`RTok`, `parseRegex`, `matchToks`, `gReplaceCount`)
covering the fragment the compiled rule patterns live in: literal
characters, backslash escapes, `.`, and the `*`/`+`/`?` quantifiers with
greedy backtracking, global (all-occurrences) matching with the JavaScript
advance-by-one-on-empty-match discipline.  The fixed regexes appearing
textually in `cleanFormat` and `formatAsHeading` (`/^[-*]\s+/`,
`/^(#{1,6})\s*/`, the WeChat passes, `/\n{3,}/`, `/^#+\s*/`) are each
translated into a direct scanner that implements the same replacement.
-/

namespace FormatCleaner

/-- JavaScript whitespace (the class `\s`, also the set trimmed by
`String.prototype.trim`). -/
def isWs (c : Char) : Bool :=
  c.toNat = 32 || c.toNat = 9 || c.toNat = 10 || c.toNat = 13 ||
  c.toNat = 11 || c.toNat = 12 ||
  c.toNat = 0xa0 || c.toNat = 0x1680 ||
  (0x2000 ≤ c.toNat && c.toNat ≤ 0x200a) ||
  c.toNat = 0x2028 || c.toNat = 0x2029 || c.toNat = 0x202f || c.toNat = 0x205f ||
  c.toNat = 0x3000 || c.toNat = 0xfeff

/-- The full-width punctuation class of the WeChat pass (the code points
of the characters in the source's character class, U+FF0C U+3002 U+FF01
U+FF1F U+FF1B U+FF1A U+3001). -/
def isFw (c : Char) : Bool :=
  c.toNat = 0xff0c || c.toNat = 0x3002 || c.toNat = 0xff01 || c.toNat = 0xff1f ||
  c.toNat = 0xff1b || c.toNat = 0xff1a || c.toNat = 0x3001

/-- The class `[a-zA-Z0-9]` of the WeChat spacing passes. -/
def isLatin (c : Char) : Bool :=
  (97 ≤ c.toNat && c.toNat ≤ 122) || (65 ≤ c.toNat && c.toNat ≤ 90) ||
  (48 ≤ c.toNat && c.toNat ≤ 57)

/-- The CJK ideograph class (U+4E00 to U+9FA5) of the WeChat spacing
passes. -/
def isCjk (c : Char) : Bool :=
  0x4e00 ≤ c.toNat && c.toNat ≤ 0x9fa5

/-- `String.prototype.trim`: drop whitespace from both ends. -/
def trimBoth (l : List Char) : List Char :=
  ((l.dropWhile isWs).reverse.dropWhile isWs).reverse

/-- `text.split('\n')`: one entry per line, empty entries preserved. -/
def splitNl : List Char → List (List Char)
  | [] => [[]]
  | c :: rest =>
    if c = '\n' then [] :: splitNl rest
    else
      match splitNl rest with
      | h :: t => (c :: h) :: t
      | [] => [[c]]

/-- Does `pat` occur at the front of `l`? -/
def leadsWith : List Char → List Char → Bool
  | [], _ => true
  | _ :: _, [] => false
  | p :: ps, c :: cs => p = c && leadsWith ps cs

/-- Does `pat` occur anywhere in `l` (`String.prototype.includes`)? -/
def hasSub (pat : List Char) : List Char → Bool
  | [] => leadsWith pat []
  | c :: rest => leadsWith pat (c :: rest) || hasSub pat rest

/-! ## A small regex engine

Model of the JavaScript `RegExp` fragment that the compiled rule patterns
(`new RegExp(escapeRegExp(from), 'g')`) live in: a pattern is a sequence of
quantified atoms, an atom is a literal character (possibly written with a
backslash escape) or the dot, a quantifier is one of nothing, `*`, `+`, `?`.
Patterns using constructs outside this fragment (groups, classes, anchors,
alternation) do not parse; the compiled rule patterns never contain them
unescaped. -/

/-- A regex atom: a literal character or `.` (any character but `\n`). -/
inductive RAtom
  | lit (c : Char)
  | dot
deriving DecidableEq, Repr

/-- A quantifier on an atom. -/
inductive RQuant
  | one
  | star
  | plus
  | opt
deriving DecidableEq, Repr

/-- A quantified atom. -/
structure RTok where
  atom : RAtom
  quant : RQuant
deriving DecidableEq, Repr

/-- The metacharacters escaped by `escapeRegExp` (`/[.*+?^${}()|[\]\\]/g`). -/
def isMeta (c : Char) : Bool :=
  c = '.' || c = '*' || c = '+' || c = '?' || c = '^' || c = '$' ||
  c = '{' || c = '}' || c = '(' || c = ')' || c = '|' ||
  c = '[' || c = ']' || c = '\\'

/-- `escapeRegExp` (src/main.ts:256-258): prepend a backslash to every
regex metacharacter of the string. -/
def escapeRegExpL (l : List Char) : List Char :=
  l.flatMap (fun c => if isMeta c then ['\\', c] else [c])

/-- Attach a trailing quantifier character, if present, to an atom. -/
def withQuant (a : RAtom) : List Char → RTok × List Char
  | '*' :: rest => (⟨a, .star⟩, rest)
  | '+' :: rest => (⟨a, .plus⟩, rest)
  | '?' :: rest => (⟨a, .opt⟩, rest)
  | l => (⟨a, .one⟩, l)

/-- Characters that start a construct outside the supported fragment (or are
invalid at atom position, as a bare quantifier is). -/
def isUnsupported (c : Char) : Bool :=
  c = '*' || c = '+' || c = '?' || c = '^' || c = '$' ||
  c = '{' || c = '}' || c = '(' || c = ')' || c = '|' ||
  c = '[' || c = ']'

/-- The atom denoted by an unescaped non-metacharacter: `.` is the dot,
anything else a literal. -/
def atomOf (c : Char) : RAtom :=
  if c = '.' then .dot else .lit c

/-- Parse a pattern string into a token sequence, with explicit fuel (the
parser consumes at least one character per step, so `l.length + 1` fuel is
always enough); `none` when the pattern does not compile in the supported
fragment. -/
def parseRegexF : Nat → List Char → Option (List RTok)
  | 0, _ => none
  | _ + 1, [] => some []
  | fuel + 1, c :: rest =>
    if c = '\\' then
      match rest with
      | [] => none
      | c2 :: rest2 =>
        match parseRegexF fuel (withQuant (.lit c2) rest2).2 with
        | some ts => some ((withQuant (.lit c2) rest2).1 :: ts)
        | none => none
    else if isUnsupported c then none
    else
      match parseRegexF fuel (withQuant (atomOf c) rest).2 with
      | some ts => some ((withQuant (atomOf c) rest).1 :: ts)
      | none => none

/-- Parse a pattern string (`new RegExp(pattern)` over the supported
fragment). -/
def parseRegex (l : List Char) : Option (List RTok) :=
  parseRegexF (l.length + 1) l

/-- Match one atom at the front of the input, returning the remainder. -/
def matchAtom : RAtom → List Char → Option (List Char)
  | _, [] => none
  | .lit c, x :: rest => if x = c then some rest else none
  | .dot, x :: rest => if x = '\n' then none else some rest

/-- Greedy backtracking match of a token sequence at the front of the
input, with explicit fuel; returns the remainder after the match.  Every
step either consumes an input character or drops a token and the token
list never grows, so `toks.length + s.length + 1` fuel is always enough. -/
def matchToksF : Nat → List RTok → List Char → Option (List Char)
  | 0, _, _ => none
  | _ + 1, [], s => some s
  | fuel + 1, t :: ts, s =>
    match t.quant with
    | .one =>
      match matchAtom t.atom s with
      | some s' => matchToksF fuel ts s'
      | none => none
    | .opt =>
      match matchAtom t.atom s with
      | some s' =>
        match matchToksF fuel ts s' with
        | some r => some r
        | none => matchToksF fuel ts s
      | none => matchToksF fuel ts s
    | .star =>
      match matchAtom t.atom s with
      | some s' =>
        match matchToksF fuel (t :: ts) s' with
        | some r => some r
        | none => matchToksF fuel ts s
      | none => matchToksF fuel ts s
    | .plus =>
      match matchAtom t.atom s with
      | some s' => matchToksF fuel (⟨t.atom, .star⟩ :: ts) s'
      | none => none

/-- Match a token sequence at the front of the input. -/
def matchToks (toks : List RTok) (s : List Char) : Option (List Char) :=
  matchToksF (toks.length + s.length + 1) toks s

/-- Global (flag `g`) count-and-replace: scan left to right; at each
position try a match; on a non-empty match emit the replacement and resume
after it (the `skip` counter drops the remaining matched characters), on
an empty match emit the replacement, keep the current character and
advance one position (JavaScript `String.prototype.replace` with a global
regex).  Returns the number of matches (the length of the array
`String.prototype.match` would return) together with the rewritten
string. -/
def grAux (toks : List RTok) (toL : List Char) : Nat → List Char → Nat × List Char
  | _ + 1, [] => (0, [])
  | skip + 1, _ :: rest => grAux toks toL skip rest
  | 0, [] =>
    match matchToks toks [] with
    | some _ => (1, toL)
    | none => (0, [])
  | 0, c :: rest =>
    match matchToks toks (c :: rest) with
    | some s' =>
      let k := (c :: rest).length - s'.length
      if k = 0 then
        let p := grAux toks toL 0 rest
        (p.1 + 1, toL ++ c :: p.2)
      else
        let p := grAux toks toL (k - 1) rest
        (p.1 + 1, toL ++ p.2)
    | none =>
      let p := grAux toks toL 0 rest
      (p.1, c :: p.2)

/-- Global count-and-replace of a compiled pattern over a line. -/
def gReplaceCount (toks : List RTok) (toL : List Char) (l : List Char) :
    Nat × List Char :=
  grAux toks toL 0 l

/-! ## Settings and rule compilation -/

/-- The `AISource` union type of src/main.ts. -/
inductive AISource
  | none
  | chatgpt
  | claude
deriving DecidableEq, Repr

/-- A `{from: string, to: string}` replacement rule.  `from`/`to` are kept
as character lists; the field names avoid the Lean keyword `from`. -/
structure Rule where
  fromS : List Char
  toS : List Char
deriving DecidableEq, Repr

/-- The per-source bundles of `FormatCleanerSettings.aiPatterns`. -/
structure AIPatterns where
  chatgpt : List Rule
  claude : List Rule
deriving DecidableEq, Repr

/-- `FormatCleanerSettings` (src/main.ts:15-27); the `language` field only
selects UI strings and is omitted. -/
structure Settings where
  removeMarkdown : Bool
  unifyListMarker : Bool
  autoFormatHeadings : Bool
  customReplacements : List Rule
  defaultAISource : AISource
  wechatReady : Bool
  aiPatterns : AIPatterns
deriving DecidableEq, Repr

/-- A compiled pattern `{regex: RegExp, to: string}`. -/
structure CompiledRule where
  toks : List RTok
  toS : List Char
deriving DecidableEq, Repr

/-- Compile one rule: `new RegExp(this.escapeRegExp(from), 'g')`
(src/main.ts:151-167).  Escaped patterns always parse; `getD` totalizes. -/
def compileRule (r : Rule) : CompiledRule :=
  ⟨(parseRegex (escapeRegExpL r.fromS)).getD [], r.toS⟩

/-- The compiled-pattern cache built by `compilePatterns`. -/
structure CompiledPatterns where
  chatgpt : List CompiledRule
  claude : List CompiledRule
  custom : List CompiledRule

/-- `compilePatterns` (src/main.ts:151-167). -/
def compilePatterns (s : Settings) : CompiledPatterns :=
  ⟨s.aiPatterns.chatgpt.map compileRule,
   s.aiPatterns.claude.map compileRule,
   s.customReplacements.map compileRule⟩

/-- The replacement engine (src/main.ts:183-189, 194-200): apply each
compiled pattern in sequence order to the evolving line; when the pattern
matches, add the match count to the accumulated statistics and replace all
occurrences. -/
def applyRules (rules : List CompiledRule) (line : List Char) : List Char × Nat :=
  rules.foldl
    (fun acc r =>
      let p := gReplaceCount r.toks r.toS acc.1
      if p.1 = 0 then acc else (p.2, acc.2 + p.1))
    (line, 0)

/-! ## Structural per-paragraph transforms

Each fixed regex replacement of `cleanFormat` is translated into a direct
scanner over the character list. -/

/-- `cleaned.replace(/^[-*]\s+/, '• ')` (src/main.ts:205): an anchored,
non-global replacement of a leading `-` or `*` marker followed by at least
one whitespace character (consumed greedily) with a bullet. -/
def unifyList (l : List Char) : List Char :=
  match l with
  | c :: d :: rest =>
    if (c = '-' || c = '*') && isWs d then
      '•' :: ' ' :: (d :: rest).dropWhile isWs
    else l
  | _ => l

/-- `cleaned.replace(/^(#{1,6})\s*/, '$1 ')` (src/main.ts:210), applied
when the line starts with `#`: the run of at most six leading `#`
characters, then exactly one space, then the rest with the whitespace that
followed the matched run removed. -/
def normalizeHeading (l : List Char) : List Char :=
  let k := min (l.takeWhile (· = '#')).length 6
  List.replicate k '#' ++ ' ' :: (l.drop k).dropWhile isWs

/-- Is the whitespace run at the front of `l` followed by a full-width
punctuation mark? -/
def wsThenFw (l : List Char) : Bool :=
  match l.dropWhile isWs with
  | p :: _ => isFw p
  | [] => false

/-- `cleaned.replace(/\s*([，。！？；：、])\s*/g, '$1')` (src/main.ts:216):
delete the whitespace around every full-width punctuation mark.  The
`skip` flag is on while inside the whitespace run that trails a match
(the greedy trailing `\s*`); a whitespace character whose run leads to a
punctuation mark belongs to a leading `\s*` and is dropped one character
at a time. -/
def wpAux : Bool → List Char → List Char
  | _, [] => []
  | skip, c :: rest =>
    if skip && isWs c then wpAux true rest
    else if isFw c then c :: wpAux true rest
    else if isWs c && wsThenFw rest then wpAux false rest
    else c :: wpAux false rest

/-- The WeChat punctuation de-spacing pass. -/
def wechatPunct (l : List Char) : List Char :=
  wpAux false l

/-- The common shape of the two WeChat boundary-spacing passes
(`replace(/([X])([Y])/g, '$1 $2')` for two character classes): insert one
space wherever an `f` character is immediately followed by a `g`
character, scanning left to right and resuming after each match. -/
def spacePass (f g : Char → Bool) : List Char → List Char
  | [] => []
  | [c] => [c]
  | a :: b :: rest =>
    if f a && g b then a :: ' ' :: b :: spacePass f g rest
    else a :: spacePass f g (b :: rest)

/-- `cleaned.replace(/([a-zA-Z0-9])([一-龥])/g, '$1 $2')`
(src/main.ts:218): insert a space at every Latin-or-digit → CJK boundary. -/
def cjkSpace1 : List Char → List Char := spacePass isLatin isCjk

/-- `cleaned.replace(/([一-龥])([a-zA-Z0-9])/g, '$1 $2')`
(src/main.ts:219): insert a space at every CJK → Latin-or-digit boundary. -/
def cjkSpace2 : List Char → List Char := spacePass isCjk isLatin

/-- `replace(/\n{3,}/g, '\n\n')` (src/main.ts:221 and 232): collapse every
run of three or more newlines to exactly two. -/
def cnAux : Bool → List Char → List Char
  | _, [] => []
  | skip, c :: rest =>
    if skip && c = '\n' then cnAux true rest
    else if c = '\n' && 2 ≤ (rest.takeWhile (· = '\n')).length then
      '\n' :: '\n' :: cnAux true rest
    else c :: cnAux false rest

/-- The newline-run collapse (`skip` is on inside a run already collapsed
to two newlines). -/
def collapseNl (l : List Char) : List Char :=
  cnAux false l

/-! ## The paragraph pipeline -/

/-- The WeChat per-paragraph pass (src/main.ts:214-222) in source order:
punctuation de-spacing, the two boundary-spacing passes, then the newline
collapse. -/
def wechatPara (l : List Char) : List Char :=
  collapseNl (cjkSpace2 (cjkSpace1 (wechatPunct l)))

/-- One paragraph of `cleanFormat` (src/main.ts:178-225): trim, AI
patterns, custom replacements, list-marker unification, heading
normalization, WeChat pass.  Returns the cleaned paragraph and the number
of replacements counted into `stats`. -/
def processPara (s : Settings) (cp : CompiledPatterns) (para : List Char) :
    List Char × Nat :=
  let c0 := trimBoth para
  let p1 :=
    match s.defaultAISource with
    | .none => (c0, 0)
    | .chatgpt => applyRules cp.chatgpt c0
    | .claude => applyRules cp.claude c0
  let p2 :=
    if s.removeMarkdown then
      let q := applyRules cp.custom p1.1
      (q.1, p1.2 + q.2)
    else p1
  let c3 := if s.unifyListMarker then unifyList p2.1 else p2.1
  let c4 :=
    if s.autoFormatHeadings && (c3.head? = some '#') then normalizeHeading c3
    else c3
  let c5 := if s.wechatReady then wechatPara c4 else c4
  (c5, p2.2)

/-- `cleanFormat` (src/main.ts:169-236): split into lines, process each
paragraph, drop the now-empty ones, rejoin with a blank line, and for
WeChat trim the joined result and collapse newline runs.  Returns
`result` and `stats.replacements`. -/
def cleanFormat (s : Settings) (text : List Char) : List Char × Nat :=
  let cp := compilePatterns s
  let results := (splitNl text).map (processPara s cp)
  let stats := results.foldl (fun a pr => a + pr.2) 0
  let kept := (results.map Prod.fst).filter (fun p => p.length ≠ 0)
  let joined := (kept.intersperse ['\n', '\n']).flatten
  let finalResult :=
    if s.wechatReady then collapseNl (trimBoth joined) else joined
  (finalResult, stats)

/-- The core text transform of `formatAsHeading` (src/main.ts:238-254):
`'#'.repeat(level) + ' ' + input.replace(/^#+\s*/, '')`.  The regex is
anchored and requires at least one `#`; with no leading `#` the input is
kept whole. -/
def formatAsHeading (input : List Char) (level : Nat) : List Char :=
  let stripped :=
    match input with
    | '#' :: _ => (input.dropWhile (· = '#')).dropWhile isWs
    | _ => input
  List.replicate level '#' ++ ' ' :: stripped

/-! ## Ad-hoc pattern validation -/

/-- `isValidRegex` (src/main.ts:260-280).  Pattern compilation
(`new RegExp(pattern)`) is modelled by `parseRegex` over the supported
fragment. -/
def isValidRegex (pattern : List Char) : Bool :=
  (parseRegex pattern).isSome &&
  ¬ (1000 < pattern.length) &&
  ¬ (50 < pattern.count '(') &&
  ¬ (hasSub ['(', '.', '*', ')'] pattern || hasSub ['(', '.', '+', ')'] pattern)

/-- `validateAndApplyRegex` (src/main.ts:282-299): validate the **escaped**
pattern, and on success apply `new RegExp(escapeRegExp(pattern), 'g')`
globally, adding the match count to the statistics.  On rejection the text
is returned unchanged (the `Notice` side effect is not modelled). -/
def validateAndApplyRegex (text pattern replacement : List Char) (stats : Nat) :
    List Char × Nat :=
  if ¬ isValidRegex (escapeRegExpL pattern) then (text, stats)
  else
    let toks := (parseRegex (escapeRegExpL pattern)).getD []
    let p := gReplaceCount toks replacement text
    (p.2, stats + p.1)

/-! ## Canonical settings values used in the statements -/

/-- Every transform disabled, no rules. -/
def bareSettings : Settings :=
  ⟨false, false, false, [], .none, false, ⟨[], []⟩⟩

/-- Only heading normalization enabled. -/
def headingOnly : Settings :=
  ⟨false, false, true, [], .none, false, ⟨[], []⟩⟩

/-- Only the WeChat pass enabled. -/
def wechatOnly : Settings :=
  ⟨false, false, false, [], .none, true, ⟨[], []⟩⟩

/-- Markdown removal with the given custom rules, everything else off. -/
def customOnly (rules : List Rule) : Settings :=
  ⟨true, false, false, rules, .none, false, ⟨[], []⟩⟩

/-- Spec side, for C4: replay a rule sequence over a line, recording for
each rule the number of matches its pattern finds in the line at the
moment it is applied, together with the final line. -/
def ruleTrace : List CompiledRule → List Char → List Nat × List Char
  | [], line => ([], line)
  | r :: rs, line =>
    let p := gReplaceCount r.toks r.toS line
    let next := if p.1 = 0 then line else p.2
    let t := ruleTrace rs next
    (p.1 :: t.1, t.2)

/-- Spec side, for C4: the per-paragraph replacement count — the sum of
the match counts of the applied AI patterns followed by those of the
applied custom patterns, the latter taken on the line as left by the AI
patterns. -/
def paraCountSpec (s : Settings) (cp : CompiledPatterns) (para : List Char) : Nat :=
  let t := trimBoth para
  let ai :=
    match s.defaultAISource with
    | .none => ([], t)
    | .chatgpt => ruleTrace cp.chatgpt t
    | .claude => ruleTrace cp.claude t
  let cu := if s.removeMarkdown then (ruleTrace cp.custom ai.2).1 else []
  (ai.1 ++ cu).sum

/-- The token sequence of a literal pattern: one unquantified literal
atom per character. -/
def litToks (pat : List Char) : List RTok :=
  pat.map (fun c => ⟨.lit c, .one⟩)

/-- Spec side, for C5: the literal global count-and-replace — at each
position test whether `pat` occurs literally (`leadsWith`), replace the
occurrence and resume after it, with the same empty-match discipline as
the regex scanner. -/
def litAux (pat toL : List Char) : Nat → List Char → Nat × List Char
  | _ + 1, [] => (0, [])
  | skip + 1, _ :: rest => litAux pat toL skip rest
  | 0, [] => if leadsWith pat [] then (1, toL) else (0, [])
  | 0, c :: rest =>
    if leadsWith pat (c :: rest) then
      if pat.length = 0 then
        let p := litAux pat toL 0 rest
        (p.1 + 1, toL ++ c :: p.2)
      else
        let p := litAux pat toL (pat.length - 1) rest
        (p.1 + 1, toL ++ p.2)
    else
      let p := litAux pat toL 0 rest
      (p.1, c :: p.2)

/-- Literal global count-and-replace over a line. -/
def litScan (pat toL l : List Char) : Nat × List Char :=
  litAux pat toL 0 l

/-- For C9: adjacent-pair invariant checker — `q` holds of every pair of
adjacent characters. -/
def chainOk (q : Char → Char → Bool) : List Char → Bool
  | a :: b :: rest => q a b && chainOk q (b :: rest)
  | _ => true

/-- For C9: no whitespace character adjacent to a full-width punctuation
mark, in either order. -/
def pairOkFw (a b : Char) : Bool :=
  !(isWs a && isFw b) && !(isFw a && isWs b)

/-- For C9: what `splitNl` gives back on paragraphs joined by a blank
line — the paragraphs with one empty line between each two. -/
def sepNil : List (List Char) → List (List Char)
  | [] => [[]]
  | [q] => [q]
  | q :: qs => q :: [] :: sepNil qs

/-- For C9: right-trim the last paragraph (the effect of the document
level trim of the WeChat branch on the joined result). -/
def lastTrimR : List (List Char) → List (List Char)
  | [] => []
  | [q] => [List.rdropWhile isWs q]
  | q :: qs => q :: lastTrimR qs

/-- For C9: join a list of paragraphs with one blank line between each
two (what `cleanFormat` does to the kept paragraphs). -/
def joinBlank (qs : List (List Char)) : List Char :=
  (qs.intersperse ['\n', '\n']).flatten

/-- For C9: the per-paragraph transform of `cleanFormat` when the AI
source is `none` and `removeMarkdown` is off — trim and the three
structural transforms. -/
def structuralPara (s : Settings) (p : List Char) : List Char :=
  let t0 := trimBoth p
  let c3 := if s.unifyListMarker then unifyList t0 else t0
  let c4 :=
    if s.autoFormatHeadings && (c3.head? = some '#') then normalizeHeading c3
    else c3
  if s.wechatReady then wechatPara c4 else c4

/-- For C9: the first two characters are not a list marker followed by
whitespace (the shape `unifyList` rewrites). -/
def markerFree (l : List Char) : Prop :=
  ∀ a b r, l = a :: b :: r → (a = '-' ∨ a = '*') → isWs b = false

/-- Spec side, for C7: is the previous non-whitespace character (if any)
a full-width punctuation mark? -/
def prevFw : Option Char → Bool
  | some d => isFw d
  | none => false

/-- Spec side, for C7, following the spec's words "strip whitespace
immediately surrounding the marks": delete every whitespace character
whose nearest non-whitespace neighbour on either side is a full-width
punctuation mark (`prev` carries the last non-whitespace character seen
to the left). -/
def stripFwWs : Option Char → List Char → List Char
  | _, [] => []
  | prev, c :: rest =>
    if isWs c && (prevFw prev || wsThenFw rest) then stripFwWs prev rest
    else if isWs c then c :: stripFwWs prev rest
    else c :: stripFwWs (some c) rest

/-- Spec side, for C7, following the spec's words "insert a single space
at every boundary, in both directions": one space is inserted at every
adjacent pair whose left character satisfies `f` and whose right
character satisfies `g` — every pair is inspected, nothing is skipped. -/
def spaceEverywhere (f g : Char → Bool) : List Char → List Char
  | [] => []
  | [c] => [c]
  | a :: b :: rest =>
    if f a && g b then a :: ' ' :: spaceEverywhere f g (b :: rest)
    else a :: spaceEverywhere f g (b :: rest)

/-! ## Facts about the character classes and scanning helpers -/

theorem dropWhile_len (p : Char → Bool) (l : List Char) :
    (l.dropWhile p).length ≤ l.length :=
  (List.dropWhile_sublist p).length_le

theorem latin_not_fw {c : Char} (h : isLatin c = true) : isFw c = false := by
  simp only [isLatin, isFw, Bool.or_eq_true, Bool.and_eq_true,
    decide_eq_true_eq] at *
  simp only [Bool.or_eq_false_iff, decide_eq_false_iff_not]
  omega

theorem latin_not_cjk {c : Char} (h : isLatin c = true) : isCjk c = false := by
  simp only [isLatin, isCjk, Bool.or_eq_true, Bool.and_eq_true,
    decide_eq_true_eq] at *
  simp only [Bool.and_eq_false_iff, decide_eq_false_iff_not]
  omega

theorem latin_not_ws {c : Char} (h : isLatin c = true) : isWs c = false := by
  simp only [isLatin, isWs, Bool.or_eq_true, Bool.and_eq_true,
    decide_eq_true_eq] at *
  simp only [Bool.or_eq_false_iff, Bool.and_eq_false_iff,
    decide_eq_false_iff_not]
  omega

theorem cjk_not_fw {c : Char} (h : isCjk c = true) : isFw c = false := by
  simp only [isCjk, isFw, Bool.or_eq_true, Bool.and_eq_true,
    decide_eq_true_eq] at *
  simp only [Bool.or_eq_false_iff, decide_eq_false_iff_not]
  omega

theorem cjk_not_ws {c : Char} (h : isCjk c = true) : isWs c = false := by
  simp only [isCjk, isWs, Bool.or_eq_true, Bool.and_eq_true,
    decide_eq_true_eq] at *
  simp only [Bool.or_eq_false_iff, Bool.and_eq_false_iff,
    decide_eq_false_iff_not]
  omega

theorem cjk_not_latin {c : Char} (h : isCjk c = true) : isLatin c = false := by
  simp only [isCjk, isLatin, Bool.or_eq_true, Bool.and_eq_true,
    decide_eq_true_eq] at *
  simp only [Bool.or_eq_false_iff, Bool.and_eq_false_iff,
    decide_eq_false_iff_not]
  omega

theorem takeWhile_all_append {p : Char → Bool} :
    ∀ (w rest : List Char), (∀ c ∈ w, p c = true) →
      (∀ c, rest.head? = some c → p c = false) →
      (w ++ rest).takeWhile p = w := by
  intro w
  induction w with
  | nil =>
    intro rest _ hr
    cases rest with
    | nil => simp
    | cons c r =>
      simp only [List.nil_append, List.takeWhile_cons]
      rw [hr c rfl]
      simp
  | cons a w ih =>
    intro rest hw hr
    simp only [List.cons_append, List.takeWhile_cons]
    rw [hw a (by simp)]
    simp only [if_true]
    rw [ih rest (fun c hc => hw c (by simp [hc])) hr]

theorem head_not_hash {w rest : List Char} (hw : ∀ c ∈ w, isWs c = true)
    (hr : ∀ c, rest.head? = some c → isWs c = false ∧ c ≠ '#') :
    ∀ c, (w ++ rest).head? = some c → (c = '#') = false := by
  intro c hc
  cases w with
  | nil =>
    simp only [List.nil_append] at hc
    have := (hr c hc).2
    simp [this]
  | cons a w' =>
    simp only [List.cons_append, List.head?_cons, Option.some_inj] at hc
    rw [← hc]
    have ha := hw a (by simp)
    have h2 : a ≠ '#' := by
      intro h3; subst h3; simp [isWs] at ha
    simp [h2]

theorem dropWhile_all_append {p : Char → Bool} :
    ∀ (w rest : List Char), (∀ c ∈ w, p c = true) →
      (∀ c, rest.head? = some c → p c = false) →
      (w ++ rest).dropWhile p = rest := by
  intro w
  induction w with
  | nil =>
    intro rest _ hr
    cases rest with
    | nil => simp
    | cons c r =>
      simp only [List.nil_append, List.dropWhile_cons]
      rw [hr c rfl]
      simp
  | cons a w ih =>
    intro rest hw hr
    simp only [List.cons_append, List.dropWhile_cons]
    rw [hw a (by simp)]
    simp only [if_true]
    exact ih rest (fun c hc => hw c (by simp [hc])) hr

theorem takeWhile_hash {k : Nat} {w rest : List Char}
    (hw : ∀ c ∈ w, isWs c = true)
    (hr : ∀ c, rest.head? = some c → isWs c = false ∧ c ≠ '#') :
    (List.replicate k '#' ++ w ++ rest).takeWhile (· = '#') =
      List.replicate k '#' := by
  rw [List.append_assoc]
  exact takeWhile_all_append (List.replicate k '#') (w ++ rest)
    (fun c hc => by simp [List.eq_of_mem_replicate hc])
    (by intro c hc; simpa using head_not_hash hw hr c hc)

theorem drop_hash {k : Nat} {w rest : List Char} :
    (List.replicate k '#' ++ w ++ rest).drop k = w ++ rest := by
  rw [List.append_assoc]
  have := List.drop_left (List.replicate k '#') (w ++ rest)
  simpa using this

/-! ## The claims -/

/-- C1, corrected.  When `autoFormatHeadings` is on, a paragraph starting
with 1 to 6 `#` characters is normalized so exactly one space follows the
run (zero or several whitespace characters collapse to one); a paragraph
with more than six leading `#` characters is **not** left untouched: its
first six `#` are taken as the heading run and one space is inserted after
them, the surplus hashes following.  `"#Title"` becomes `"# Title"`,
`"###   Title"` becomes `"### Title"`, and `"####### Title"` becomes
`"###### # Title"`. -/
theorem claim_C1 :
    (∀ (k : Nat) (w rest : List Char), 1 ≤ k → k ≤ 6 →
      (∀ c ∈ w, isWs c = true) →
      (∀ c, rest.head? = some c → isWs c = false ∧ c ≠ '#') →
      normalizeHeading (List.replicate k '#' ++ w ++ rest) =
        List.replicate k '#' ++ ' ' :: rest) ∧
    (∀ (k : Nat) (w rest : List Char), 6 < k →
      (∀ c ∈ w, isWs c = true) →
      (∀ c, rest.head? = some c → isWs c = false ∧ c ≠ '#') →
      normalizeHeading (List.replicate k '#' ++ w ++ rest) =
        List.replicate 6 '#' ++ ' ' :: (List.replicate (k - 6) '#' ++ w ++ rest)) ∧
    (cleanFormat headingOnly "#Title".data).1 = "# Title".data ∧
    (cleanFormat headingOnly "###   Title".data).1 = "### Title".data ∧
    (cleanFormat headingOnly "####### Title".data).1 = "###### # Title".data := by
  refine ⟨?_, ?_, by decide, by decide, by decide⟩
  · intro k w rest hk1 hk6 hw hr
    unfold normalizeHeading
    rw [takeWhile_hash hw hr]
    simp only [List.length_replicate]
    have hmin : min k 6 = k := by omega
    rw [hmin, drop_hash]
    rw [dropWhile_all_append w rest hw (fun c hc => (hr c hc).1)]
  · intro k w rest hk hw hr
    unfold normalizeHeading
    rw [takeWhile_hash hw hr]
    simp only [List.length_replicate]
    have hmin : min k 6 = 6 := by omega
    rw [hmin]
    have hsplit : List.replicate k '#' =
        List.replicate 6 '#' ++ List.replicate (k - 6) '#' := by
      rw [← List.replicate_add]
      congr 1
      omega
    rw [hsplit]
    have hdrop : ((List.replicate 6 '#' ++ List.replicate (k - 6) '#') ++ w ++ rest).drop 6 =
        List.replicate (k - 6) '#' ++ w ++ rest := by
      rw [List.append_assoc, List.append_assoc]
      have := List.drop_left (List.replicate 6 '#')
        (List.replicate (k - 6) '#' ++ (w ++ rest))
      simpa [List.append_assoc] using this
    rw [hdrop]
    have hk6 : k - 6 = (k - 7) + 1 := by omega
    have hcons : List.replicate (k - 6) '#' = '#' :: List.replicate (k - 7) '#' := by
      have hk6 : k - 6 = (k - 7) + 1 := by omega
      rw [hk6, List.replicate_succ]
    rw [hcons]
    simp only [List.cons_append, List.dropWhile_cons]
    have hns : isWs '#' = false := by decide
    rw [hns]
    simp

/-- C1 witness: the general parts applied at `"## T"` (two hashes, one
space) and at `"####### Title"` (seven hashes). -/
theorem claim_C1_witness :
    normalizeHeading (List.replicate 2 '#' ++ [' '] ++ "T".data) =
      List.replicate 2 '#' ++ ' ' :: "T".data ∧
    normalizeHeading (List.replicate 7 '#' ++ [' '] ++ "Title".data) =
      List.replicate 6 '#' ++ ' ' :: (List.replicate (7 - 6) '#' ++ [' '] ++ "Title".data) :=
  ⟨claim_C1.1 2 [' '] "T".data (by decide) (by decide) (by decide) (by decide),
   claim_C1.2.1 7 [' '] "Title".data (by decide) (by decide) (by decide)⟩

/-- C1 counterexample: with `autoFormatHeadings` enabled, the
seven-hash paragraph `"####### Title"` is **not** left untouched by
`cleanFormat` — a space is inserted after the sixth hash. -/
theorem claim_C1_cex :
    (cleanFormat headingOnly "####### Title".data).1 ≠ "####### Title".data := by
  decide

/-- C2: the raw user pattern `"(.*)"` does fail the safety heuristic
(`isValidRegex "(.*)" = false`), but `validateAndApplyRegex` validates the
**escaped** pattern `\(\.\*\)`, which passes every check, so the pattern is
not rejected: applying it to `"a(.*)b"` rewrites the text to `"ab"` and
counts one replacement instead of returning the input unchanged and
signaling an invalid pattern. -/
theorem claim_C2 :
    isValidRegex "(.*)".data = false ∧
    isValidRegex (escapeRegExpL "(.*)".data) = true ∧
    validateAndApplyRegex "a(.*)b".data "(.*)".data [] 0 = ("ab".data, 1) := by
  exact ⟨by decide, by decide, by decide⟩

/-- C3: a rule whose `from` is empty is **not** rejected or skipped: it is
compiled to an empty pattern that matches at every position, so on the
one-character text `"a"` it counts two replacements, and with `to = "x"`
it rewrites `"a"` to `"xax"`. -/
theorem claim_C3 :
    (cleanFormat (customOnly [⟨[], []⟩]) "a".data).2 = 2 ∧
    (cleanFormat (customOnly [⟨[], "x".data⟩]) "a".data).1 = "xax".data := by
  exact ⟨by decide, by decide⟩

/-- C8: the heading formatter strips any existing leading run of `#`
characters together with the whitespace following it (an input with no
leading `#` is kept whole, its leading whitespace included), then prepends
exactly `level` `#` characters followed by one space;
`formatAsHeading "## Old" 1 = "# Old"` and
`formatAsHeading "NoHeading" 3 = "### NoHeading"`. -/
theorem claim_C8 :
    (∀ (k level : Nat) (w rest : List Char), 1 ≤ k →
      (∀ c ∈ w, isWs c = true) →
      (∀ c, rest.head? = some c → isWs c = false ∧ c ≠ '#') →
      formatAsHeading (List.replicate k '#' ++ w ++ rest) level =
        List.replicate level '#' ++ ' ' :: rest) ∧
    (∀ (input : List Char) (level : Nat),
      (∀ c, input.head? = some c → c ≠ '#') →
      formatAsHeading input level = List.replicate level '#' ++ ' ' :: input) ∧
    formatAsHeading "## Old".data 1 = "# Old".data ∧
    formatAsHeading "NoHeading".data 3 = "### NoHeading".data := by
  refine ⟨?_, ?_, by decide, by decide⟩
  · intro k level w rest hk hw hr
    obtain ⟨k', rfl⟩ : ∃ k', k = k' + 1 := ⟨k - 1, by omega⟩
    rw [List.replicate_succ]
    simp only [List.cons_append, formatAsHeading]
    have hdw : (('#' :: (List.replicate k' '#' ++ w ++ rest)).dropWhile (· = '#')) =
        w ++ rest := by
      have := @dropWhile_all_append (· = '#')
        (List.replicate (k' + 1) '#') (w ++ rest)
        (fun c hc => by simp [List.eq_of_mem_replicate hc])
        (by intro c hc; simpa using head_not_hash hw hr c hc)
      rw [List.replicate_succ] at this
      simpa [List.append_assoc] using this
    rw [hdw]
    rw [dropWhile_all_append w rest hw (fun c hc => (hr c hc).1)]
  · intro input level h
    cases input with
    | nil => simp [formatAsHeading]
    | cons c r =>
      have hc : c ≠ '#' := h c rfl
      unfold formatAsHeading
      split
      · rename_i heq
        injection heq with h1 h2
        exact absurd h1 hc
      · rfl

/-- C8 witness: the strip case at `"## Old"`, `level = 1`. -/
theorem claim_C8_witness :
    formatAsHeading (List.replicate 2 '#' ++ [' '] ++ "Old".data) 1 =
      List.replicate 1 '#' ++ ' ' :: "Old".data :=
  claim_C8.1 2 1 [' '] "Old".data (by decide) (by decide) (by decide)

theorem foldl_snd_eq {f g : List Char → List Char × Nat}
    (h : ∀ p, (f p).2 = (g p).2) :
    ∀ (ps : List (List Char)) (n : Nat),
      ((ps.map f).foldl (fun a pr => a + pr.2) n) =
      ((ps.map g).foldl (fun a pr => a + pr.2) n) := by
  intro ps
  induction ps with
  | nil => intro n; rfl
  | cons p ps ih =>
    intro n
    simp only [List.map_cons, List.foldl_cons, h p]
    exact ih _

/-- C10: the reported replacement count depends only on the AI-pattern and
custom-replacement applications: flipping the `unifyListMarker`,
`autoFormatHeadings` and `wechatReady` flags arbitrarily never changes
`stats.replacements` — the structural rewrites they control are not
counted. -/
theorem claim_C10 (s : Settings) (t : List Char) (b1 b2 b3 : Bool) :
    (cleanFormat
      ⟨s.removeMarkdown, b1, b2, s.customReplacements, s.defaultAISource,
        b3, s.aiPatterns⟩ t).2 = (cleanFormat s t).2 :=
  @foldl_snd_eq
    (processPara
      ⟨s.removeMarkdown, b1, b2, s.customReplacements, s.defaultAISource,
        b3, s.aiPatterns⟩
      (compilePatterns
        ⟨s.removeMarkdown, b1, b2, s.customReplacements, s.defaultAISource,
          b3, s.aiPatterns⟩))
    (processPara s (compilePatterns s))
    (fun _ => rfl) (splitNl t) 0

theorem applyRules_trace : ∀ (rules : List CompiledRule) (line : List Char) (n : Nat),
    rules.foldl
      (fun acc r =>
        let p := gReplaceCount r.toks r.toS acc.1
        if p.1 = 0 then acc else (p.2, acc.2 + p.1)) (line, n) =
    ((ruleTrace rules line).2, n + (ruleTrace rules line).1.sum) := by
  intro rules
  induction rules with
  | nil => intro line n; simp [ruleTrace]
  | cons r rs ih =>
    intro line n
    simp only [List.foldl_cons, ruleTrace]
    by_cases h : (gReplaceCount r.toks r.toS line).1 = 0
    · simp only [h, if_true, ite_true]
      rw [ih line n]
      simp [h]
    · simp only [h, if_false, ite_false]
      rw [ih (gReplaceCount r.toks r.toS line).2 (n + (gReplaceCount r.toks r.toS line).1)]
      simp [h]
      omega

theorem processPara_count (s : Settings) (cp : CompiledPatterns) (p : List Char) :
    (processPara s cp p).2 = paraCountSpec s cp p := by
  unfold processPara paraCountSpec applyRules
  cases s.defaultAISource with
  | none =>
    by_cases h : s.removeMarkdown
    · simp only [h, if_true, ite_true, applyRules_trace]
      simp
    · simp [h]
  | chatgpt =>
    by_cases h : s.removeMarkdown
    · simp only [h, if_true, ite_true, applyRules_trace]
      simp [List.sum_append]
    · simp only [h, if_false, ite_false, applyRules_trace]
      simp
  | claude =>
    by_cases h : s.removeMarkdown
    · simp only [h, if_true, ite_true, applyRules_trace]
      simp [List.sum_append]
    · simp only [h, if_false, ite_false, applyRules_trace]
      simp

theorem foldl_snd_sum (f : List Char → List Char × Nat) :
    ∀ (ps : List (List Char)) (n : Nat),
      (ps.map f).foldl (fun a pr => a + pr.2) n =
        n + (ps.map (fun p => (f p).2)).sum := by
  intro ps
  induction ps with
  | nil => intro n; simp
  | cons p ps ih =>
    intro n
    simp only [List.map_cons, List.foldl_cons, List.sum_cons, ih]
    omega

/-- C4: for every input and settings, `stats.replacements` equals the sum,
over all paragraphs and all applied rules in sequence order, of the number
of matches each compiled pattern finds in the line at the moment it is
applied (`ruleTrace` records exactly those counts); being a `Nat` sum of
the individual counts, it is non-negative and counts no match twice. -/
theorem claim_C4 (s : Settings) (t : List Char) :
    (cleanFormat s t).2 =
      ((splitNl t).map (paraCountSpec s (compilePatterns s))).sum := by
  show ((splitNl t).map (processPara s (compilePatterns s))).foldl
      (fun a pr => a + pr.2) 0 = _
  rw [foldl_snd_sum]
  simp only [processPara_count, Nat.zero_add]

/-- C6: `clean` splits the text into one paragraph per line; after the
per-paragraph processing it discards every paragraph that became empty and
rejoins the survivors with exactly one blank-line separator (`"\n\n"`);
in particular `"a\n\n\nb"` with no rules enabled yields `"a\n\nb"`. -/
theorem claim_C6 :
    (∀ (s : Settings) (t : List Char), s.wechatReady = false →
      (cleanFormat s t).1 =
        List.intercalate ['\n', '\n']
          (((splitNl t).map
              (fun p => (processPara s (compilePatterns s) p).1)).filter
            (fun p => p.length ≠ 0))) ∧
    (cleanFormat bareSettings "a\n\n\nb".data).1 = "a\n\nb".data := by
  refine ⟨?_, by decide⟩
  intro s t h
  show (if s.wechatReady then _ else _) = _
  rw [h]
  simp only [if_false, List.intercalate]
  rw [List.map_map]
  rfl

/-- C6 witness: the structural part applied to the no-rules settings and
`"a\n\n\nb"`. -/
theorem claim_C6_witness :
    (cleanFormat bareSettings "a\n\n\nb".data).1 =
      List.intercalate ['\n', '\n']
        (((splitNl "a\n\n\nb".data).map
            (fun p => (processPara bareSettings (compilePatterns bareSettings) p).1)).filter
          (fun p => p.length ≠ 0)) :=
  claim_C6.1 bareSettings "a\n\n\nb".data rfl

theorem withQuant_esc (a : RAtom) (cs : List Char) :
    withQuant a (escapeRegExpL cs) = (⟨a, .one⟩, escapeRegExpL cs) := by
  match cs with
  | [] => simp [escapeRegExpL, withQuant]
  | c :: cs' =>
    simp only [escapeRegExpL, List.flatMap_cons]
    by_cases h : isMeta c
    · simp [h, withQuant]
    · simp only [h, if_false, Bool.false_eq_true, List.cons_append, List.nil_append]
      have h1 : c ≠ '*' := by intro hh; subst hh; simp [isMeta] at h
      have h2 : c ≠ '+' := by intro hh; subst hh; simp [isMeta] at h
      have h3 : c ≠ '?' := by intro hh; subst hh; simp [isMeta] at h
      unfold withQuant
      split
      · rename_i heq; injection heq with ha hb; exact absurd ha h1
      · rename_i heq; injection heq with ha hb; exact absurd ha h2
      · rename_i heq; injection heq with ha hb; exact absurd ha h3
      · rfl

theorem escapeRegExpL_cons (c : Char) (cs : List Char) :
    escapeRegExpL (c :: cs) =
      (if isMeta c then ['\\', c] else [c]) ++ escapeRegExpL cs := by
  simp [escapeRegExpL]

theorem parse_escape_fuel :
    ∀ (pat : List Char) (fuel : Nat), (escapeRegExpL pat).length < fuel →
      parseRegexF fuel (escapeRegExpL pat) = some (litToks pat) := by
  intro pat
  induction pat with
  | nil =>
    intro fuel hf
    obtain ⟨f, rfl⟩ : ∃ f, fuel = f + 1 := ⟨fuel - 1, by omega⟩
    simp [escapeRegExpL, parseRegexF, litToks]
  | cons c cs ih =>
    intro fuel hf
    obtain ⟨f, rfl⟩ : ∃ f, fuel = f + 1 := ⟨fuel - 1, by omega⟩
    rw [escapeRegExpL_cons] at hf ⊢
    by_cases h : isMeta c
    · simp only [h, if_true, ite_true] at hf ⊢
      simp only [List.cons_append, List.nil_append, List.length_cons] at hf ⊢
      simp only [parseRegexF, if_pos rfl]
      rw [withQuant_esc]
      rw [ih f (by omega)]
      simp [litToks]
    · simp only [h, if_false, Bool.false_eq_true, ite_false] at hf ⊢
      simp only [List.cons_append, List.nil_append, List.length_cons] at hf ⊢
      have hbs : c ≠ '\\' := by intro hh; subst hh; simp [isMeta] at h
      have hus : isUnsupported c = false := by
        simp only [isUnsupported]
        simp only [isMeta, Bool.or_eq_true, decide_eq_true_eq] at h
        push_neg at h
        simp only [Bool.or_eq_false_iff, decide_eq_false_iff_not]
        tauto
      have hdot : c ≠ '.' := by intro hh; subst hh; simp [isMeta] at h
      simp only [parseRegexF, if_neg hbs, hus, if_false, Bool.false_eq_true, ite_false]
      have ha : atomOf c = .lit c := by simp [atomOf, hdot]
      rw [ha, withQuant_esc]
      rw [ih f (by omega)]
      simp [litToks]

theorem parse_escape (pat : List Char) :
    parseRegex (escapeRegExpL pat) = some (litToks pat) :=
  parse_escape_fuel pat _ (by omega)

theorem leadsWith_length {pat l : List Char} (h : leadsWith pat l = true) :
    pat.length ≤ l.length := by
  induction pat generalizing l with
  | nil => simp
  | cons p ps ih =>
    cases l with
    | nil => simp [leadsWith] at h
    | cons c cs =>
      simp only [leadsWith, Bool.and_eq_true, decide_eq_true_eq] at h
      have := ih h.2
      simp only [List.length_cons]
      omega

theorem matchToksF_lit :
    ∀ (pat : List Char) (s : List Char) (fuel : Nat),
      pat.length + s.length < fuel →
      matchToksF fuel (litToks pat) s =
        if leadsWith pat s then some (s.drop pat.length) else none := by
  intro pat
  induction pat with
  | nil =>
    intro s fuel hf
    obtain ⟨f, rfl⟩ : ∃ f, fuel = f + 1 := ⟨fuel - 1, by omega⟩
    simp [litToks, matchToksF, leadsWith]
  | cons p ps ih =>
    intro s fuel hf
    obtain ⟨f, rfl⟩ : ∃ f, fuel = f + 1 := ⟨fuel - 1, by omega⟩
    simp only [litToks, List.map_cons]
    cases s with
    | nil =>
      simp [matchToksF, matchAtom, leadsWith]
    | cons c cs =>
      simp only [matchToksF, matchAtom, leadsWith]
      by_cases hc : c = p
      · subst hc
        have hrec := ih cs f (by simp at hf ⊢; omega)
        simp only [litToks] at hrec
        simp [hrec, List.drop_succ_cons]
      · simp [hc, Ne.symm hc]

theorem matchToks_lit (pat s : List Char) :
    matchToks (litToks pat) s =
      if leadsWith pat s then some (s.drop pat.length) else none := by
  unfold matchToks
  apply matchToksF_lit
  simp [litToks]

theorem grAux_lit (pat toL : List Char) :
    ∀ (l : List Char) (skip : Nat),
      grAux (litToks pat) toL skip l = litAux pat toL skip l := by
  intro l
  induction l with
  | nil =>
    intro skip
    cases skip with
    | zero =>
      simp only [grAux, litAux, matchToks_lit]
      by_cases h : leadsWith pat [] = true
      · simp [h]
      · simp only [Bool.not_eq_true] at h
        simp [h]
    | succ n => simp [grAux, litAux]
  | cons c rest ih =>
    intro skip
    cases skip with
    | succ n => simp [grAux, litAux, ih]
    | zero =>
      simp only [grAux, litAux, matchToks_lit]
      by_cases h : leadsWith pat (c :: rest) = true
      · have hlen : pat.length ≤ (c :: rest).length := leadsWith_length h
        have hk : (c :: rest).length - ((c :: rest).drop pat.length).length =
            pat.length := by
          rw [List.length_drop]
          omega
        simp only [h, if_true, ite_true, hk]
        by_cases hz : pat.length = 0
        · simp [hz, ih]
        · simp [hz, ih]
      · simp only [Bool.not_eq_true] at h
        simp [h, ih]

/-- C5: a compiled rule pattern is a global literal-substring matcher:
for every rule `(from, to)`, running the compiled (escaped) pattern over a
line gives exactly the literal scan — the same match count and the same
rewritten line as replacing the literal occurrences of `from`; in
particular the rule `from = "**"` removes exactly the `"**"` substrings of
`"**bold** a*b"` (two matches) and the lone `*` survives. -/
theorem claim_C5 :
    (∀ (pat toL line : List Char),
      gReplaceCount (compileRule ⟨pat, toL⟩).toks (compileRule ⟨pat, toL⟩).toS line =
        litScan pat toL line) ∧
    (cleanFormat (customOnly [⟨"**".data, []⟩]) "**bold** a*b".data).1 =
      "bold a*b".data ∧
    (cleanFormat (customOnly [⟨"**".data, []⟩]) "**bold** a*b".data).2 = 2 := by
  refine ⟨?_, by decide, by decide⟩
  intro pat toL line
  have hc : (compileRule ⟨pat, toL⟩).toks = litToks pat := by
    simp [compileRule, parse_escape]
  rw [hc]
  show grAux (litToks pat) toL 0 line = litAux pat toL 0 line
  exact grAux_lit pat toL line 0

theorem ws_not_fw {c : Char} (h : isWs c = true) : isFw c = false := by
  simp only [isWs, isFw, Bool.or_eq_true, Bool.and_eq_true, decide_eq_true_eq] at *
  simp only [Bool.or_eq_false_iff, decide_eq_false_iff_not]
  omega

theorem fw_not_ws {c : Char} (h : isFw c = true) : isWs c = false := by
  simp only [isWs, isFw, Bool.or_eq_true, Bool.and_eq_true, decide_eq_true_eq] at *
  simp only [Bool.or_eq_false_iff, Bool.and_eq_false_iff, decide_eq_false_iff_not]
  omega

theorem latin_ne_nl {c : Char} (h : isLatin c = true) : ¬ c = '\n' := by
  intro hh; subst hh; simp [isLatin] at h

theorem cjk_ne_nl {c : Char} (h : isCjk c = true) : ¬ c = '\n' := by
  intro hh; subst hh; simp [isCjk] at h

theorem fw_ne_nl {c : Char} (h : isFw c = true) : ¬ c = '\n' := by
  intro hh; subst hh; simp [isFw] at h

theorem wpAux_ws_run (w1 : List Char) (p : Char) (rest : List Char)
    (hw : ∀ c ∈ w1, isWs c = true) (hp : isFw p = true) :
    wpAux false (w1 ++ p :: rest) = p :: wpAux true rest := by
  induction w1 with
  | nil => simp [wpAux, hp]
  | cons c w1' ih =>
    have hc : isWs c = true := hw c (by simp)
    have hfw : wsThenFw (w1' ++ p :: rest) = true := by
      unfold wsThenFw
      rw [dropWhile_all_append w1' (p :: rest)
        (fun d hd => hw d (by simp [hd]))
        (by intro d hd; simp only [List.head?_cons, Option.some_inj] at hd
            rw [← hd]; exact fw_not_ws hp)]
      simp [hp]
    simp only [List.cons_append, wpAux, List.append_eq, Bool.false_and,
      Bool.false_eq_true, if_false, ws_not_fw hc, hc, hfw, Bool.and_self,
      Bool.true_and, if_true, ite_false, ite_true]
    exact ih (fun d hd => hw d (by simp [hd]))

theorem wpAux_skip_ws (w : List Char) (rest : List Char)
    (hw : ∀ c ∈ w, isWs c = true) :
    wpAux true (w ++ rest) = wpAux true rest := by
  induction w with
  | nil => rfl
  | cons c w' ih =>
    have hc : isWs c = true := hw c (by simp)
    simp only [List.cons_append, wpAux, hc, Bool.true_and, Bool.and_self, if_true, ite_true]
    exact ih (fun d hd => hw d (by simp [hd]))

theorem head_dropWhile_false {p : Char → Bool} {l : List Char} {c : Char}
    (h : (l.dropWhile p).head? = some c) : p c = false := by
  induction l with
  | nil => simp at h
  | cons a rest ih =>
    rw [List.dropWhile_cons] at h
    by_cases ha : p a
    · simp only [ha, if_true, ite_true] at h
      exact ih h
    · simp only [ha, Bool.false_eq_true, if_false, ite_false, List.head?_cons,
        Option.some_inj] at h
      rw [← h]
      simp [ha]

theorem dropWhile_head_false {p : Char → Bool} {l : List Char}
    (h : ∀ c, l.head? = some c → p c = false) : l.dropWhile p = l := by
  cases l with
  | nil => rfl
  | cons a rest =>
    rw [List.dropWhile_cons]
    rw [h a rfl]
    simp

theorem front_head {x y : List Char} (h : x <+: y) (hne : x ≠ []) :
    y.head? = x.head? := by
  obtain ⟨t, rfl⟩ := h
  cases x with
  | nil => exact absurd rfl hne
  | cons a r => simp

theorem trimBoth_eq_rd_dw (l : List Char) :
    trimBoth l = List.rdropWhile isWs (l.dropWhile isWs) := rfl

theorem trimBoth_head {l : List Char} {c : Char}
    (h : (trimBoth l).head? = some c) : isWs c = false := by
  rw [trimBoth_eq_rd_dw] at h
  have hpre := List.rdropWhile_prefix isWs (l.dropWhile isWs)
  have hne : List.rdropWhile isWs (l.dropWhile isWs) ≠ [] := by
    intro hh; rw [hh] at h; simp at h
  have := front_head hpre hne
  rw [h] at this
  exact head_dropWhile_false this

theorem getLast_rdropWhile_false {p : Char → Bool} {l : List Char} {c : Char}
    (h : (List.rdropWhile p l).getLast? = some c) : p c = false := by
  have hne : List.rdropWhile p l ≠ [] := by
    intro hh; rw [hh] at h; simp at h
  have := List.rdropWhile_last_not p l hne
  rw [List.getLast?_eq_getLast _ hne] at h
  simp only [Option.some_inj] at h
  rw [← h]
  simpa using this

theorem trimBoth_getLast {l : List Char} {c : Char}
    (h : (trimBoth l).getLast? = some c) : isWs c = false := by
  rw [trimBoth_eq_rd_dw] at h
  exact getLast_rdropWhile_false h

theorem rdropWhile_getLast_false {p : Char → Bool} {l : List Char}
    (h : ∀ c, l.getLast? = some c → p c = false) : List.rdropWhile p l = l := by
  cases hl : l.getLast? with
  | none =>
    have : l = [] := by
      cases l with
      | nil => rfl
      | cons a r => simp [List.getLast?_eq_getLast] at hl
    rw [this]
    simp [List.rdropWhile]
  | some c =>
    rw [List.rdropWhile_eq_self_iff]
    intro hne
    rw [List.getLast?_eq_getLast _ hne] at hl
    simp only [Option.some_inj] at hl
    rw [hl]
    simp [h c (by rw [List.getLast?_eq_getLast _ hne, hl])]

theorem trimBoth_eq_self {l : List Char}
    (h1 : ∀ c, l.head? = some c → isWs c = false)
    (h2 : ∀ c, l.getLast? = some c → isWs c = false) : trimBoth l = l := by
  rw [trimBoth_eq_rd_dw, dropWhile_head_false h1]
  exact rdropWhile_getLast_false h2

theorem splitNl_nlfree : ∀ (t : List Char), ∀ p ∈ splitNl t, '\n' ∉ p := by
  intro t
  induction t with
  | nil =>
    intro p hp
    simp only [splitNl, List.mem_singleton] at hp
    simp [hp]
  | cons c rest ih =>
    intro p hp
    by_cases hc : c = '\n'
    · subst hc
      simp only [splitNl, if_pos rfl, if_true, List.mem_cons] at hp
      rcases hp with h | h
      · simp [h]
      · exact ih p h
    · simp only [splitNl, hc, if_false, Bool.false_eq_true, ite_false] at hp
      rcases hsp : splitNl rest with _ | ⟨h0, t0⟩
      · rw [hsp] at hp
        simp only [List.mem_singleton] at hp
        subst hp
        intro hm
        rcases List.mem_singleton.mp hm with rfl
        exact hc rfl
      · rw [hsp] at hp
        simp only [List.mem_cons] at hp
        rcases hp with h | h
        · subst h
          intro hm
          rcases List.mem_cons.mp hm with rfl | hm2
          · exact hc rfl
          · exact ih h0 (by rw [hsp]; simp) hm2
        · exact ih p (by rw [hsp]; simp [h])

theorem trimBoth_mem {l : List Char} {c : Char} (h : c ∈ trimBoth l) : c ∈ l := by
  rw [trimBoth_eq_rd_dw] at h
  have h1 := ( List.rdropWhile_prefix isWs (l.dropWhile isWs)).sublist.subset h
  exact (List.dropWhile_sublist isWs).subset h1

theorem unifyList_mem {l : List Char} {c : Char} (h : c ∈ unifyList l) :
    c ∈ l ∨ c = '•' ∨ c = ' ' := by
  rcases l with _ | ⟨a, _ | ⟨b, rest⟩⟩
  · exact Or.inl h
  · exact Or.inl h
  · simp only [unifyList] at h
    split at h
    · rcases List.mem_cons.mp h with rfl | h2
      · simp
      · rcases List.mem_cons.mp h2 with rfl | h3
        · simp
        · exact Or.inl (List.mem_cons_of_mem a
            ((List.dropWhile_sublist isWs).subset h3))
    · exact Or.inl h

theorem normalizeHeading_mem {l : List Char} {c : Char}
    (h : c ∈ normalizeHeading l) : c ∈ l ∨ c = '#' ∨ c = ' ' := by
  unfold normalizeHeading at h
  rcases List.mem_append.mp h with h1 | h2
  · exact Or.inr (Or.inl (List.eq_of_mem_replicate h1))
  · rcases List.mem_cons.mp h2 with rfl | h3
    · simp
    · exact Or.inl ((List.drop_sublist _ _).subset
        ((List.dropWhile_sublist isWs).subset h3))

theorem wpAux_mem : ∀ (b : Bool) (l : List Char) (c : Char),
    c ∈ wpAux b l → c ∈ l := by
  intro b l
  induction b, l using wpAux.induct with
  | case1 => intro c h; simp [wpAux] at h
  | case2 skip a rest h1 ih =>
    intro c h
    rw [wpAux] at h
    rw [if_pos h1] at h
    exact List.mem_cons_of_mem a (ih c h)
  | case3 skip a rest h1 h2 ih =>
    intro c h
    rw [wpAux, if_neg (by simpa using h1), if_pos h2] at h
    rcases List.mem_cons.mp h with rfl | hm
    · simp
    · exact List.mem_cons_of_mem a (ih c hm)
  | case4 skip a rest h1 h2 h3 ih =>
    intro c h
    rw [wpAux, if_neg (by simpa using h1), if_neg (by simpa using h2),
      if_pos h3] at h
    exact List.mem_cons_of_mem a (ih c h)
  | case5 skip a rest h1 h2 h3 ih =>
    intro c h
    rw [wpAux, if_neg (by simpa using h1), if_neg (by simpa using h2),
      if_neg (by simpa using h3)] at h
    rcases List.mem_cons.mp h with rfl | hm
    · simp
    · exact List.mem_cons_of_mem a (ih c hm)

theorem spacePass_mem (f g : Char → Bool) : ∀ (l : List Char) (c : Char),
    c ∈ spacePass f g l → c ∈ l ∨ c = ' ' := by
  intro l
  induction l using spacePass.induct f g with
  | case1 => intro c h; simp [spacePass] at h
  | case2 a => intro c h; simp only [spacePass] at h; exact Or.inl h
  | case3 a b rest hf ih =>
    intro c h
    rw [spacePass, if_pos hf] at h
    rcases List.mem_cons.mp h with rfl | h2
    · simp
    · rcases List.mem_cons.mp h2 with rfl | h3
      · simp
      · rcases List.mem_cons.mp h3 with rfl | h4
        · simp
        · rcases ih c h4 with h5 | h5
          · exact Or.inl (by simp [h5])
          · exact Or.inr h5
  | case4 a b rest hf ih =>
    intro c h
    rw [spacePass, if_neg (by simpa using hf)] at h
    rcases List.mem_cons.mp h with rfl | h2
    · simp
    · rcases ih c h2 with h3 | h3
      · exact Or.inl (List.mem_cons_of_mem a h3)
      · exact Or.inr h3

theorem cnAux_nlfree_id : ∀ (b : Bool) (l : List Char), '\n' ∉ l →
    cnAux b l = l := by
  intro b l
  induction l generalizing b with
  | nil => intro _; rfl
  | cons a rest ih =>
    intro h
    have ha : ¬ a = '\n' := by
      intro hh; exact h (by simp [hh])
    unfold cnAux
    rw [if_neg (by simp [ha]), if_neg (by simp [ha])]
    rw [ih false (fun hm => h (List.mem_cons_of_mem a hm))]


theorem ws_nl : isWs '\n' = true := by decide

theorem wpAux_head {l : List Char} {c : Char} (hl : l.head? = some c)
    (hc : isWs c = false) : (wpAux false l).head? = some c := by
  cases l with
  | nil => simp at hl
  | cons a rest =>
    simp only [List.head?_cons, Option.some_inj] at hl
    subst hl
    unfold wpAux
    rw [if_neg (by simp)]
    by_cases hf : isFw a
    · rw [if_pos hf]; rfl
    · rw [if_neg hf, if_neg (by simp [hc])]; rfl

theorem spacePass_head (f g : Char → Bool) (l : List Char) :
    (spacePass f g l).head? = l.head? := by
  rcases l with _ | ⟨a, _ | ⟨b, rest⟩⟩
  · rfl
  · rfl
  · unfold spacePass
    by_cases hf : (f a && g b) = true
    · rw [if_pos hf]; rfl
    · rw [if_neg hf]; rfl

theorem cnAux_head {l : List Char} {c : Char} (hl : l.head? = some c)
    (hc : ¬ c = '\n') : (cnAux false l).head? = some c := by
  cases l with
  | nil => simp at hl
  | cons a rest =>
    simp only [List.head?_cons, Option.some_inj] at hl
    subst hl
    unfold cnAux
    rw [if_neg (by simp), if_neg (by simp [hc])]
    rfl

theorem wechatPara_head {l : List Char} {c : Char} (hl : l.head? = some c)
    (hc : isWs c = false) : (wechatPara l).head? = some c := by
  unfold wechatPara
  have h1 : (wechatPunct l).head? = some c := wpAux_head hl hc
  have h2 : (cjkSpace1 (wechatPunct l)).head? = some c := by
    rw [cjkSpace1, spacePass_head]; exact h1
  have h3 : (cjkSpace2 (cjkSpace1 (wechatPunct l))).head? = some c := by
    rw [cjkSpace2, spacePass_head]; exact h2
  have hcn : ¬ c = '\n' := by
    intro hh; subst hh; rw [ws_nl] at hc; cases hc
  exact cnAux_head h3 hcn

theorem unifyList_head_nonws {l : List Char}
    (h : ∀ c, l.head? = some c → isWs c = false) :
    ∀ c, (unifyList l).head? = some c → isWs c = false := by
  intro c hc
  rcases l with _ | ⟨a, _ | ⟨b, rest⟩⟩
  · exact h c hc
  · exact h c hc
  · simp only [unifyList] at hc
    split at hc
    · simp only [List.head?_cons, Option.some_inj] at hc
      subst hc
      decide
    · exact h c hc

theorem normalizeHeading_head {l : List Char} (h : l.head? = some '#') :
    (normalizeHeading l).head? = some '#' := by
  unfold normalizeHeading
  cases l with
  | nil => simp at h
  | cons a rest =>
    simp only [List.head?_cons, Option.some_inj] at h
    subst h
    have ht : (('#' :: rest).takeWhile (· = '#')).length =
        (rest.takeWhile (· = '#')).length + 1 := by
      simp [List.takeWhile_cons]
    rw [ht]
    have hmin : min ((rest.takeWhile (· = '#')).length + 1) 6 =
        min (rest.takeWhile (· = '#')).length 5 + 1 := by omega
    rw [hmin]
    simp [List.replicate_succ]

theorem wechatPara_nil : wechatPara [] = [] := rfl

theorem unify_stage_head (s : Settings) {x : List Char}
    (hx : ∀ c, x.head? = some c → isWs c = false) :
    ∀ c, ((if s.unifyListMarker then unifyList x else x)).head? = some c →
      isWs c = false := by
  by_cases hu : s.unifyListMarker
  · rw [if_pos hu]
    exact unifyList_head_nonws hx
  · rw [if_neg hu]
    exact hx

theorem heading_stage_head (s : Settings) {x : List Char}
    (hx : ∀ c, x.head? = some c → isWs c = false) :
    ∀ c, ((if s.autoFormatHeadings && (x.head? = some '#') then
        normalizeHeading x else x)).head? = some c → isWs c = false := by
  by_cases hh : (s.autoFormatHeadings && (x.head? = some '#')) = true
  · rw [if_pos hh]
    simp only [Bool.and_eq_true, decide_eq_true_eq] at hh
    intro c hc
    rw [normalizeHeading_head hh.2] at hc
    simp only [Option.some_inj] at hc
    subst hc
    decide
  · rw [if_neg hh]
    exact hx

theorem wechat_stage_head (s : Settings) {x : List Char}
    (hx : ∀ c, x.head? = some c → isWs c = false) :
    ∀ c, ((if s.wechatReady then wechatPara x else x)).head? = some c →
      isWs c = false := by
  by_cases hw : s.wechatReady
  · rw [if_pos hw]
    cases x with
    | nil =>
      rw [wechatPara_nil]
      intro c hc
      simp at hc
    | cons a r =>
      intro c hc
      have hhd : (a :: r).head? = some a := rfl
      have ha : isWs a = false := hx a hhd
      rw [wechatPara_head hhd ha] at hc
      simp only [Option.some_inj] at hc
      subst hc
      exact ha
  · rw [if_neg hw]
    exact hx

theorem structuralPara_head (s : Settings) (p : List Char) :
    ∀ c, (structuralPara s p).head? = some c → isWs c = false := by
  intro c hc
  unfold structuralPara at hc
  exact wechat_stage_head s
    (heading_stage_head s
      (unify_stage_head s (fun c hc => trimBoth_head hc))) c hc

theorem wechatPara_nlfree {l : List Char} (h : '\n' ∉ l) :
    '\n' ∉ wechatPara l := by
  have h1 : '\n' ∉ wechatPunct l := fun hm => h (wpAux_mem false l '\n' hm)
  have h2 : '\n' ∉ cjkSpace1 (wechatPunct l) := by
    intro hm
    rcases spacePass_mem isLatin isCjk _ '\n' hm with hh | hh
    · exact h1 hh
    · cases hh
  have h3 : '\n' ∉ cjkSpace2 (cjkSpace1 (wechatPunct l)) := by
    intro hm
    rcases spacePass_mem isCjk isLatin _ '\n' hm with hh | hh
    · exact h2 hh
    · cases hh
  unfold wechatPara
  rw [collapseNl, cnAux_nlfree_id false _ h3]
  exact h3

theorem structuralPara_nlfree (s : Settings) {p : List Char} (hp : '\n' ∉ p) :
    '\n' ∉ structuralPara s p := by
  have h0 : '\n' ∉ trimBoth p := fun hm => hp (trimBoth_mem hm)
  have h3 : '\n' ∉ (if s.unifyListMarker then unifyList (trimBoth p) else trimBoth p) := by
    by_cases hu : s.unifyListMarker
    · rw [if_pos hu]
      intro hm
      rcases unifyList_mem hm with hh | hh | hh
      · exact h0 hh
      · cases hh
      · cases hh
    · rw [if_neg hu]; exact h0
  set c3 := if s.unifyListMarker then unifyList (trimBoth p) else trimBoth p
  have h4 : '\n' ∉ (if s.autoFormatHeadings && (c3.head? = some '#') then
      normalizeHeading c3 else c3) := by
    split
    · intro hm
      rcases normalizeHeading_mem hm with hh | hh | hh
      · exact h3 hh
      · cases hh
      · cases hh
    · exact h3
  set c4 := if s.autoFormatHeadings && (c3.head? = some '#') then
      normalizeHeading c3 else c3
  unfold structuralPara
  show '\n' ∉ (if s.wechatReady then wechatPara c4 else c4)
  split
  · exact wechatPara_nlfree h4
  · exact h4

theorem processPara_structural (s : Settings) (cp : CompiledPatterns)
    (h1 : s.removeMarkdown = false) (h2 : s.defaultAISource = .none)
    (p : List Char) :
    (processPara s cp p).1 = structuralPara s p := by
  unfold processPara structuralPara
  rw [h2, h1]
  simp

theorem structuralPara_nil (s : Settings) : structuralPara s [] = [] := by
  have ht : trimBoth ([] : List Char) = [] := rfl
  have hu : unifyList ([] : List Char) = [] := rfl
  simp only [structuralPara, ht, hu, ite_self]
  simp [wechatPara_nil]

theorem chainOk_nil (q : Char → Char → Bool) : chainOk q [] = true := rfl

theorem chainOk_one (q : Char → Char → Bool) (a : Char) :
    chainOk q [a] = true := rfl

theorem chainOk_tail {q : Char → Char → Bool} {a : Char} {l : List Char}
    (h : chainOk q (a :: l) = true) : chainOk q l = true := by
  cases l with
  | nil => rfl
  | cons b r =>
    simp only [chainOk, Bool.and_eq_true] at h
    exact h.2

theorem chainOk_pair {q : Char → Char → Bool} {a b : Char} {l : List Char}
    (h : chainOk q (a :: b :: l) = true) : q a b = true := by
  simp only [chainOk, Bool.and_eq_true] at h
  exact h.1

theorem chainOk_cons {q : Char → Char → Bool} {a : Char} {l : List Char}
    (hl : chainOk q l = true)
    (ha : ∀ b, l.head? = some b → q a b = true) : chainOk q (a :: l) = true := by
  cases l with
  | nil => rfl
  | cons b r =>
    simp only [chainOk, Bool.and_eq_true]
    exact ⟨ha b rfl, hl⟩

theorem fw_not_latin {c : Char} (h : isFw c = true) : isLatin c = false := by
  simp only [isFw, isLatin, Bool.or_eq_true, Bool.and_eq_true,
    decide_eq_true_eq] at *
  simp only [Bool.or_eq_false_iff, Bool.and_eq_false_iff,
    decide_eq_false_iff_not]
  omega

theorem fw_not_cjk {c : Char} (h : isFw c = true) : isCjk c = false := by
  simp only [isFw, isCjk, Bool.or_eq_true, Bool.and_eq_true,
    decide_eq_true_eq] at *
  simp only [Bool.and_eq_false_iff, decide_eq_false_iff_not]
  omega

theorem fw_ne_hash {c : Char} (h : isFw c = true) : ¬ c = '#' := by
  intro hh; subst hh; simp [isFw] at h

theorem wpAux_skip_head : ∀ (l : List Char) {c : Char},
    (wpAux true l).head? = some c → isWs c = false := by
  intro l
  induction l with
  | nil => intro c h; simp [wpAux] at h
  | cons a rest ih =>
    intro c h
    by_cases ha : isWs a
    · rw [wpAux, if_pos (by simp [ha])] at h
      exact ih h
    · rw [wpAux, if_neg (by simp [ha])] at h
      by_cases hf : isFw a
      · rw [if_pos hf] at h
        simp only [List.head?_cons, Option.some_inj] at h
        subst h
        simp [ha]
      · rw [if_neg hf, if_neg (by simp [ha])] at h
        simp only [List.head?_cons, Option.some_inj] at h
        subst h
        simp [ha]

theorem wpAux_false_head_fw {l : List Char} (hws : wsThenFw l = false) :
    ∀ c, (wpAux false l).head? = some c → isFw c = false := by
  intro c h
  cases l with
  | nil => simp [wpAux] at h
  | cons d r =>
    by_cases hd : isWs d
    · have hrest : wsThenFw r = false := by
        unfold wsThenFw at hws ⊢
        rw [List.dropWhile_cons, if_pos hd] at hws
        exact hws
      rw [wpAux, if_neg (by simp), if_neg (by simp [ws_not_fw hd]),
        if_neg (by simp [hrest])] at h
      simp only [List.head?_cons, Option.some_inj] at h
      subst h
      exact ws_not_fw hd
    · have hfd : isFw d = false := by
        unfold wsThenFw at hws
        rw [List.dropWhile_cons, if_neg (by simp [hd])] at hws
        exact hws
      rw [wpAux, if_neg (by simp), if_neg (by simp [hfd]), if_neg (by simp [hd])] at h
      simp only [List.head?_cons, Option.some_inj] at h
      subst h
      exact hfd

theorem wpAux_true_false {l : List Char}
    (h : ∀ c, l.head? = some c → isWs c = false) :
    wpAux true l = wpAux false l := by
  cases l with
  | nil => rfl
  | cons a rest =>
    have ha : isWs a = false := h a rfl
    simp only [wpAux, ha, Bool.and_false, Bool.true_and, Bool.false_and,
      Bool.false_eq_true, if_false, ite_false]

theorem wpAux_chainOk : ∀ (b : Bool) (l : List Char),
    chainOk pairOkFw (wpAux b l) = true := by
  intro b l
  induction b, l using wpAux.induct with
  | case1 => exact chainOk_nil _
  | case2 skip a rest h1 ih =>
    rw [wpAux, if_pos h1]
    exact ih
  | case3 skip a rest h1 h2 ih =>
    rw [wpAux, if_neg (by simpa using h1), if_pos h2]
    refine chainOk_cons ih ?_
    intro d hd
    have hdws : isWs d = false := wpAux_skip_head rest hd
    unfold pairOkFw
    rw [fw_not_ws h2, hdws]
    simp
  | case4 skip a rest h1 h2 h3 ih =>
    rw [wpAux, if_neg (by simpa using h1), if_neg (by simpa using h2),
      if_pos h3]
    exact ih
  | case5 skip a rest h1 h2 h3 ih =>
    rw [wpAux, if_neg (by simpa using h1), if_neg (by simpa using h2),
      if_neg (by simpa using h3)]
    refine chainOk_cons ih ?_
    intro d hd
    have hfa : isFw a = false := by simpa using h2
    by_cases haws : isWs a
    · have hrest : wsThenFw rest = false := by
        by_contra hcon
        simp only [Bool.not_eq_false] at hcon
        have h3' : ¬ (isWs a = true ∧ wsThenFw rest = true) := by simpa using h3
        exact h3' ⟨haws, hcon⟩
      have := wpAux_false_head_fw hrest d hd
      unfold pairOkFw
      rw [this, hfa]
      simp
    · unfold pairOkFw
      rw [hfa]
      simp [haws]

theorem chain_wsThenFw : ∀ {c : Char} {rest : List Char}, isWs c = true →
    chainOk pairOkFw (c :: rest) = true → wsThenFw rest = false := by
  intro c rest
  induction rest generalizing c with
  | nil => intro _ _; rfl
  | cons d r ih =>
    intro hc hch
    unfold wsThenFw
    rw [List.dropWhile_cons]
    by_cases hd : isWs d
    · rw [if_pos hd]
      have := ih hd (chainOk_tail hch)
      unfold wsThenFw at this
      exact this
    · rw [if_neg (by simp [hd])]
      have hp := chainOk_pair hch
      unfold pairOkFw at hp
      simp only [Bool.and_eq_true, Bool.not_eq_true', Bool.and_eq_false_iff] at hp
      rcases hp.1 with hh | hh
      · rw [hc] at hh; cases hh
      · exact hh

theorem wpAux_id : ∀ {l : List Char}, chainOk pairOkFw l = true →
    wpAux false l = l := by
  intro l
  induction l with
  | nil => intro _; rfl
  | cons c rest ih =>
    intro h
    by_cases hf : isFw c
    · rw [wpAux, if_neg (by simp), if_pos hf]
      cases rest with
      | nil => rfl
      | cons d r =>
        have hp := chainOk_pair h
        unfold pairOkFw at hp
        simp only [Bool.and_eq_true, Bool.not_eq_true', Bool.and_eq_false_iff] at hp
        rcases hp.2 with hh | hh
        · rw [hf] at hh; cases hh
        · rw [wpAux_true_false (by
            intro e he
            simp only [List.head?_cons, Option.some_inj] at he
            subst he
            exact hh)]
          rw [ih (chainOk_tail h)]
    · by_cases hw : isWs c
      · have hrest : wsThenFw rest = false := chain_wsThenFw hw h
        rw [wpAux, if_neg (by simp), if_neg hf, if_neg (by simp [hrest])]
        rw [ih (chainOk_tail h)]
      · rw [wpAux, if_neg (by simp), if_neg hf, if_neg (by simp [hw])]
        rw [ih (chainOk_tail h)]

theorem spacePass_ne_nil (f g : Char → Bool) {l : List Char} (h : l ≠ []) :
    spacePass f g l ≠ [] := by
  intro hc
  have := spacePass_head f g l
  rw [hc] at this
  cases l with
  | nil => exact h rfl
  | cons a r => simp at this

theorem spacePass_chainOk (f g : Char → Bool)
    (hdisj : ∀ c, g c = true → f c = false)
    (hf : f ' ' = false) (hg : g ' ' = false) :
    ∀ l, chainOk (fun a b => !(f a && g b)) (spacePass f g l) = true := by
  intro l
  induction l using spacePass.induct f g with
  | case1 => exact chainOk_nil _
  | case2 a => exact chainOk_one _ a
  | case3 a b rest hfg ih =>
    rw [spacePass, if_pos hfg]
    simp only [Bool.and_eq_true] at hfg
    refine chainOk_cons (chainOk_cons (chainOk_cons ih ?_) ?_) ?_
    · intro d hd
      rw [spacePass_head] at hd
      have hb : f b = false := hdisj b hfg.2
      simp [hb]
    · intro d hd
      simp only [List.head?_cons, Option.some_inj] at hd
      subst hd
      simp [hf]
    · intro d hd
      simp only [List.head?_cons, Option.some_inj] at hd
      subst hd
      simp [hg]
  | case4 a b rest hfg ih =>
    rw [spacePass, if_neg (by simpa using hfg)]
    refine chainOk_cons ih ?_
    intro d hd
    rw [spacePass_head] at hd
    simp only [List.head?_cons, Option.some_inj] at hd
    subst hd
    have hff : (f a && g b) = false := Bool.eq_false_iff.mpr (by simpa using hfg)
    simp [hff]

theorem spacePass_id (f g : Char → Bool) :
    ∀ {l : List Char}, chainOk (fun a b => !(f a && g b)) l = true →
      spacePass f g l = l := by
  intro l
  induction l using spacePass.induct f g with
  | case1 => intro _; rfl
  | case2 a => intro _; rfl
  | case3 a b rest hfg ih =>
    intro h
    have := chainOk_pair h
    simp only [Bool.not_eq_true'] at this
    rw [this] at hfg
    cases hfg
  | case4 a b rest hfg ih =>
    intro h
    rw [spacePass, if_neg (by simpa using hfg)]
    rw [ih (chainOk_tail h)]

theorem spacePass_pres (f g : Char → Bool) (q : Char → Char → Bool)
    (hq : ∀ a b, f a = true → g b = true → q a ' ' = true ∧ q ' ' b = true) :
    ∀ {l : List Char}, chainOk q l = true → chainOk q (spacePass f g l) = true := by
  intro l
  induction l using spacePass.induct f g with
  | case1 => intro _; exact chainOk_nil _
  | case2 a => intro _; exact chainOk_one _ a
  | case3 a b rest hfg ih =>
    intro h
    rw [spacePass, if_pos hfg]
    simp only [Bool.and_eq_true] at hfg
    have htail : chainOk q (b :: rest) = true := chainOk_tail h
    refine chainOk_cons (chainOk_cons (chainOk_cons (ih (chainOk_tail htail)) ?_) ?_) ?_
    · intro d hd
      rw [spacePass_head] at hd
      cases rest with
      | nil => simp at hd
      | cons e r =>
        simp only [List.head?_cons, Option.some_inj] at hd
        subst hd
        exact chainOk_pair htail
    · intro d hd
      simp only [List.head?_cons, Option.some_inj] at hd
      subst hd
      exact (hq a b hfg.1 hfg.2).2
    · intro d hd
      simp only [List.head?_cons, Option.some_inj] at hd
      subst hd
      exact (hq a b hfg.1 hfg.2).1
  | case4 a b rest hfg ih =>
    intro h
    rw [spacePass, if_neg (by simpa using hfg)]
    refine chainOk_cons (ih (chainOk_tail h)) ?_
    intro d hd
    rw [spacePass_head] at hd
    simp only [List.head?_cons, Option.some_inj] at hd
    subst hd
    exact chainOk_pair h

theorem wechatPara_eq_passes {l : List Char} (h : '\n' ∉ l) :
    wechatPara l = cjkSpace2 (cjkSpace1 (wechatPunct l)) := by
  have h1 : '\n' ∉ wechatPunct l := fun hm => h (wpAux_mem false l '\n' hm)
  have h2 : '\n' ∉ cjkSpace1 (wechatPunct l) := by
    intro hm
    rcases spacePass_mem isLatin isCjk _ '\n' hm with hh | hh
    · exact h1 hh
    · cases hh
  have h3 : '\n' ∉ cjkSpace2 (cjkSpace1 (wechatPunct l)) := by
    intro hm
    rcases spacePass_mem isCjk isLatin _ '\n' hm with hh | hh
    · exact h2 hh
    · cases hh
  unfold wechatPara
  rw [collapseNl, cnAux_nlfree_id false _ h3]

theorem wechatPara_idem {l : List Char} (hnl : '\n' ∉ l) :
    wechatPara (wechatPara l) = wechatPara l := by
  have hnl2 : '\n' ∉ wechatPara l := wechatPara_nlfree hnl
  rw [wechatPara_eq_passes hnl] at hnl2 ⊢
  set w := cjkSpace2 (cjkSpace1 (wechatPunct l)) with hw
  have hch1 : chainOk pairOkFw w = true := by
    rw [hw]
    refine spacePass_pres isCjk isLatin pairOkFw ?_
      (spacePass_pres isLatin isCjk pairOkFw ?_ (wpAux_chainOk false l))
    · intro a b ha hb
      unfold pairOkFw
      rw [cjk_not_fw ha]
      constructor
      · simp [show isFw ' ' = false from by decide]
      · simp [latin_not_fw hb, show isWs ' ' = true from by decide,
          show isFw ' ' = false from by decide]
    · intro a b ha hb
      unfold pairOkFw
      rw [latin_not_fw ha]
      constructor
      · simp [show isFw ' ' = false from by decide]
      · simp [cjk_not_fw hb, show isFw ' ' = false from by decide]
  have hchL : chainOk (fun a b => !(isLatin a && isCjk b)) w = true := by
    rw [hw]
    refine spacePass_pres isCjk isLatin _ ?_
      (spacePass_chainOk isLatin isCjk (fun c => cjk_not_latin) (by decide) (by decide) _)
    intro a b ha hb
    constructor
    · simp [show isCjk ' ' = false from by decide]
    · simp [show isLatin ' ' = false from by decide]
  have hchC : chainOk (fun a b => !(isCjk a && isLatin b)) w = true := by
    rw [hw]
    exact spacePass_chainOk isCjk isLatin (fun c => latin_not_cjk) (by decide) (by decide) _
  rw [wechatPara_eq_passes hnl2]
  show cjkSpace2 (cjkSpace1 (wechatPunct w)) = w
  rw [show wechatPunct w = w from wpAux_id hch1]
  rw [show cjkSpace1 w = w from spacePass_id isLatin isCjk hchL]
  exact spacePass_id isCjk isLatin hchC

theorem getLast_suffix_eq {x l : List Char} (h : x <:+ l) (hne : x ≠ []) :
    l.getLast? = x.getLast? := by
  obtain ⟨t, rfl⟩ := h
  exact List.getLast?_append_of_ne_nil t hne

theorem getLast_dropWhile {p : Char → Bool} {l : List Char}
    (h : l.dropWhile p ≠ []) : (l.dropWhile p).getLast? = l.getLast? :=
  (getLast_suffix_eq (List.dropWhile_suffix p) h).symm

theorem getLast_drop {n : Nat} {l : List Char} (h : l.drop n ≠ []) :
    (l.drop n).getLast? = l.getLast? :=
  (getLast_suffix_eq (List.drop_suffix n l) h).symm

theorem unifyList_getLast {l : List Char}
    (h : ∀ c, l.getLast? = some c → isWs c = false) :
    ∀ c, (unifyList l).getLast? = some c → isWs c = false := by
  intro c hc
  rcases l with _ | ⟨a, _ | ⟨b, rest⟩⟩
  · exact h c hc
  · exact h c hc
  · simp only [unifyList] at hc
    split at hc
    · have hlast : (a :: b :: rest).getLast? = (b :: rest).getLast? := by
        rw [List.getLast?_cons_cons]
      by_cases hdw : (b :: rest).dropWhile isWs = []
      · exfalso
        rw [List.dropWhile_eq_nil_iff] at hdw
        have hbr : (b :: rest).getLast? = some ((b :: rest).getLast (by simp)) := by
          rw [List.getLast?_eq_getLast]
        have hnws := h _ (by rw [hlast, hbr])
        have hmem : (b :: rest).getLast (by simp) ∈ b :: rest :=
          List.getLast_mem _
        rw [hdw _ hmem] at hnws
        cases hnws
      · have : (('•' :: ' ' :: (b :: rest).dropWhile isWs)).getLast? =
            ((b :: rest).dropWhile isWs).getLast? := by
          show (['•', ' '] ++ (b :: rest).dropWhile isWs).getLast? = _
          rw [List.getLast?_append_of_ne_nil _ hdw]
        rw [this, getLast_dropWhile hdw] at hc
        exact h c (by rw [hlast]; exact hc)
    · exact h c hc

theorem wpAux_ne_nil : ∀ (b : Bool) (l : List Char),
    (∃ c ∈ l, isWs c = false) → wpAux b l ≠ [] := by
  intro b l
  induction b, l using wpAux.induct with
  | case1 =>
    intro h
    rcases h with ⟨c, hc, _⟩
    simp at hc
  | case2 skip a rest h1 ih =>
    intro h
    rw [wpAux, if_pos h1]
    refine ih ?_
    rcases h with ⟨c, hc, hnws⟩
    rcases List.mem_cons.mp hc with rfl | hm
    · simp only [Bool.and_eq_true] at h1
      rw [h1.2] at hnws
      cases hnws
    · exact ⟨c, hm, hnws⟩
  | case3 skip a rest h1 h2 ih =>
    intro _
    rw [wpAux, if_neg (by simpa using h1), if_pos h2]
    simp
  | case4 skip a rest h1 h2 h3 ih =>
    intro h
    rw [wpAux, if_neg (by simpa using h1), if_neg (by simpa using h2),
      if_pos h3]
    refine ih ?_
    rcases h with ⟨c, hc, hnws⟩
    rcases List.mem_cons.mp hc with rfl | hm
    · simp only [Bool.and_eq_true] at h3
      rw [h3.1] at hnws
      cases hnws
    · exact ⟨c, hm, hnws⟩
  | case5 skip a rest h1 h2 h3 ih =>
    intro _
    rw [wpAux, if_neg (by simpa using h1), if_neg (by simpa using h2),
      if_neg (by simpa using h3)]
    simp

theorem wpAux_getLast : ∀ (b : Bool) (l : List Char),
    (∀ c, l.getLast? = some c → isWs c = false) →
    (wpAux b l).getLast? = l.getLast? := by
  intro b l
  induction b, l using wpAux.induct with
  | case1 => intro _; rfl
  | case2 skip a rest h1 ih =>
    intro h
    rw [wpAux, if_pos h1]
    cases rest with
    | nil =>
      simp only [Bool.and_eq_true] at h1
      have := h a (by simp)
      rw [h1.2] at this
      cases this
    | cons d r =>
      rw [ih (by intro c hc; exact h c (by rw [List.getLast?_cons_cons]; exact hc))]
      rw [List.getLast?_cons_cons]
  | case3 skip a rest h1 h2 ih =>
    intro h
    rw [wpAux, if_neg (by simpa using h1), if_pos h2]
    cases rest with
    | nil => rfl
    | cons d r =>
      have hrest : ∀ c, (d :: r).getLast? = some c → isWs c = false := by
        intro c hc
        exact h c (by rw [List.getLast?_cons_cons]; exact hc)
      have hne : wpAux true (d :: r) ≠ [] := by
        refine wpAux_ne_nil true (d :: r) ?_
        have hgl : (d :: r).getLast? = some ((d :: r).getLast (by simp)) := by
          rw [List.getLast?_eq_getLast]
        exact ⟨(d :: r).getLast (by simp), List.getLast_mem _, hrest _ hgl⟩
      rw [show ((a :: wpAux true (d :: r)).getLast? = (wpAux true (d :: r)).getLast?) from
        List.getLast?_append_of_ne_nil [a] hne]
      rw [ih hrest, List.getLast?_cons_cons]
  | case4 skip a rest h1 h2 h3 ih =>
    intro h
    rw [wpAux, if_neg (by simpa using h1), if_neg (by simpa using h2),
      if_pos h3]
    cases rest with
    | nil =>
      simp only [Bool.and_eq_true] at h3
      have := h a (by simp)
      rw [h3.1] at this
      cases this
    | cons d r =>
      rw [ih (by intro c hc; exact h c (by rw [List.getLast?_cons_cons]; exact hc))]
      rw [List.getLast?_cons_cons]
  | case5 skip a rest h1 h2 h3 ih =>
    intro h
    rw [wpAux, if_neg (by simpa using h1), if_neg (by simpa using h2),
      if_neg (by simpa using h3)]
    cases rest with
    | nil => rfl
    | cons d r =>
      have hrest : ∀ c, (d :: r).getLast? = some c → isWs c = false := by
        intro c hc
        exact h c (by rw [List.getLast?_cons_cons]; exact hc)
      have hne : wpAux false (d :: r) ≠ [] := by
        refine wpAux_ne_nil false (d :: r) ?_
        have hgl : (d :: r).getLast? = some ((d :: r).getLast (by simp)) := by
          rw [List.getLast?_eq_getLast]
        exact ⟨(d :: r).getLast (by simp), List.getLast_mem _, hrest _ hgl⟩
      rw [show ((a :: wpAux false (d :: r)).getLast? = (wpAux false (d :: r)).getLast?) from
        List.getLast?_append_of_ne_nil [a] hne]
      rw [ih hrest, List.getLast?_cons_cons]

theorem spacePass_getLast (f g : Char → Bool) :
    ∀ (l : List Char), (spacePass f g l).getLast? = l.getLast? := by
  intro l
  induction l using spacePass.induct f g with
  | case1 => rfl
  | case2 a => rfl
  | case3 a b rest hfg ih =>
    rw [spacePass, if_pos hfg]
    cases rest with
    | nil => rfl
    | cons d r =>
      have hne : spacePass f g (d :: r) ≠ [] := spacePass_ne_nil f g (by simp)
      rw [show ((a :: ' ' :: b :: spacePass f g (d :: r)).getLast? =
          (spacePass f g (d :: r)).getLast?) from
        List.getLast?_append_of_ne_nil [a, ' ', b] hne]
      rw [ih, List.getLast?_cons_cons, List.getLast?_cons_cons]
  | case4 a b rest hfg ih =>
    rw [spacePass, if_neg (by simpa using hfg)]
    have hne : spacePass f g (b :: rest) ≠ [] := spacePass_ne_nil f g (by simp)
    rw [show ((a :: spacePass f g (b :: rest)).getLast? =
        (spacePass f g (b :: rest)).getLast?) from
      List.getLast?_append_of_ne_nil [a] hne]
    rw [ih, List.getLast?_cons_cons]

theorem unifyList_eq_of_markerFree {l : List Char} (h : markerFree l) :
    unifyList l = l := by
  rcases l with _ | ⟨a, _ | ⟨b, rest⟩⟩
  · rfl
  · rfl
  · simp only [unifyList]
    rw [if_neg]
    intro hc
    simp only [Bool.and_eq_true, Bool.or_eq_true, decide_eq_true_eq] at hc
    have := h a b rest rfl hc.1
    rw [hc.2] at this
    cases this

theorem unifyList_markerFree (l : List Char) : markerFree (unifyList l) := by
  rcases l with _ | ⟨a, _ | ⟨b, rest⟩⟩
  · intro x y r hxy
    simp [unifyList] at hxy
  · intro x y r hxy
    simp only [unifyList] at hxy
    cases hxy
  · simp only [unifyList]
    split
    · intro x y r hxy hm
      simp only [List.cons.injEq] at hxy
      rcases hm with hm | hm <;> rw [← hxy.1] at hm <;> cases hm
    · rename_i hcond
      intro x y r hxy hm
      simp only [List.cons.injEq] at hxy
      by_cases hy : isWs y
      · exfalso
        apply hcond
        simp only [Bool.and_eq_true, Bool.or_eq_true, decide_eq_true_eq]
        constructor
        · rw [hxy.1]; exact hm
        · rw [hxy.2.1]; exact hy
      · simpa using hy

theorem markerFree_of_head_bullet {l : List Char} (h : l.head? = some '•') :
    markerFree l := by
  intro a b r hab hm
  rw [hab] at h
  simp only [List.head?_cons, Option.some_inj] at h
  rcases hm with hm | hm <;> rw [hm] at h <;> cases h

theorem markerFree_of_head_hash {l : List Char} (h : l.head? = some '#') :
    markerFree l := by
  intro a b r hab hm
  rw [hab] at h
  simp only [List.head?_cons, Option.some_inj] at h
  rcases hm with hm | hm <;> rw [hm] at h <;> cases h

theorem normalizeHeading_fix {k : Nat} {r : List Char} (hk1 : 1 ≤ k)
    (hk6 : k ≤ 6) (hr : r.dropWhile isWs = r) :
    normalizeHeading (List.replicate k '#' ++ ' ' :: r) =
      List.replicate k '#' ++ ' ' :: r := by
  unfold normalizeHeading
  have htw : ((List.replicate k '#' ++ ' ' :: r).takeWhile (· = '#')) =
      List.replicate k '#' := by
    exact takeWhile_all_append (List.replicate k '#') (' ' :: r)
      (fun c hc => by simp [List.eq_of_mem_replicate hc])
      (by intro c hc
          simp only [List.head?_cons, Option.some_inj] at hc
          subst hc
          simp)
  rw [htw]
  simp only [List.length_replicate]
  have hmin : min k 6 = k := by omega
  rw [hmin]
  have hdrop : (List.replicate k '#' ++ ' ' :: r).drop k = ' ' :: r := by
    have := List.drop_left (List.replicate k '#') (' ' :: r)
    simpa using this
  rw [hdrop]
  have : (' ' :: r).dropWhile isWs = r := by
    rw [List.dropWhile_cons, if_pos (by decide)]
    exact hr
  rw [this]

theorem normalizeHeading_hashes {m : Nat} (hm1 : 1 ≤ m) (hm6 : m ≤ 6) :
    normalizeHeading (List.replicate m '#') =
      List.replicate m '#' ++ [' '] := by
  unfold normalizeHeading
  have htw : ((List.replicate m '#').takeWhile (· = '#')) =
      List.replicate m '#' := by
    have := @takeWhile_all_append (· = '#') (List.replicate m '#') []
      (fun c hc => by simp [List.eq_of_mem_replicate hc])
      (by intro c hc; simp at hc)
    simpa using this
  rw [htw]
  simp only [List.length_replicate]
  have hmin : min m 6 = m := by omega
  rw [hmin]
  have hdr : (List.replicate m '#').drop m = [] := by simp
  rw [hdr]
  simp

theorem normalizeHeading_cases {l : List Char} (hh : l.head? = some '#')
    (hlast : ∀ c, l.getLast? = some c → isWs c = false) (hnl : '\n' ∉ l) :
    (∃ k r, 1 ≤ k ∧ k ≤ 6 ∧
      normalizeHeading l = List.replicate k '#' ++ ' ' :: r ∧ r ≠ [] ∧
      r.dropWhile isWs = r ∧ (∀ c, r.getLast? = some c → isWs c = false) ∧
      '\n' ∉ r) ∨
    (∃ m, 1 ≤ m ∧ m ≤ 6 ∧
      normalizeHeading l = List.replicate m '#' ++ [' ']) := by
  set k := min (l.takeWhile (· = '#')).length 6 with hkdef
  have hk1 : 1 ≤ k := by
    cases l with
    | nil => simp at hh
    | cons a rest =>
      simp only [List.head?_cons, Option.some_inj] at hh
      subst hh
      have : (('#' :: rest).takeWhile (· = '#')).length ≥ 1 := by
        rw [List.takeWhile_cons]
        simp
      rw [hkdef]
      omega
  have hk6 : k ≤ 6 := by rw [hkdef]; omega
  set r := (l.drop k).dropWhile isWs with hrdef
  have hout : normalizeHeading l = List.replicate k '#' ++ ' ' :: r := rfl
  by_cases hr : r = []
  · right
    exact ⟨k, hk1, hk6, by rw [hout, hr]⟩
  · left
    refine ⟨k, r, hk1, hk6, hout, hr, ?_, ?_, ?_⟩
    · rw [hrdef]
      exact List.dropWhile_idempotent _ _
    · intro c hc
      have hdne : l.drop k ≠ [] := by
        intro hcon
        rw [hrdef, hcon] at hr
        exact hr rfl
      rw [hrdef] at hc
      rw [getLast_dropWhile (by rw [← hrdef]; exact hr)] at hc
      rw [getLast_drop hdne] at hc
      exact hlast c hc
    · intro hm
      rw [hrdef] at hm
      exact hnl ((List.drop_sublist _ _).subset
        ((List.dropWhile_sublist isWs).subset hm))

theorem wpAux_false_front : ∀ {x : List Char},
    (∀ c ∈ x, isWs c = false ∧ isFw c = false) → ∀ (rest : List Char),
    wpAux false (x ++ rest) = x ++ wpAux false rest := by
  intro x
  induction x with
  | nil => intro _ rest; rfl
  | cons a x' ih =>
    intro h rest
    have ha := h a (by simp)
    rw [List.cons_append, wpAux, if_neg (by simp), if_neg (by simp [ha.2]),
      if_neg (by simp [ha.1])]
    rw [ih (fun c hc => h c (by simp [hc])) rest]
    rfl

theorem spacePass_front (f g : Char → Bool) : ∀ {x : List Char},
    (∀ c ∈ x, f c = false) → ∀ (y : List Char),
    spacePass f g (x ++ y) = x ++ spacePass f g y := by
  intro x
  induction x with
  | nil => intro _ y; rfl
  | cons a x' ih =>
    intro h y
    have ha := h a (by simp)
    rw [List.cons_append]
    have hstep : spacePass f g (a :: (x' ++ y)) = a :: spacePass f g (x' ++ y) := by
      cases hxy : x' ++ y with
      | nil => rfl
      | cons d r =>
        rw [spacePass, if_neg (by simp [ha])]
    rw [hstep, ih (fun c hc => h c (by simp [hc])) y]
    rfl

theorem wechatPara_getLast {l : List Char} (hnl : '\n' ∉ l)
    (h : ∀ c, l.getLast? = some c → isWs c = false) :
    (wechatPara l).getLast? = l.getLast? := by
  rw [wechatPara_eq_passes hnl]
  unfold cjkSpace2 cjkSpace1 wechatPunct
  rw [spacePass_getLast, spacePass_getLast]
  exact wpAux_getLast false l h

theorem wechatPara_front {x y : List Char}
    (hx : ∀ c ∈ x, isWs c = false ∧ isFw c = false ∧
      isLatin c = false ∧ isCjk c = false)
    (hnl : '\n' ∉ x ++ y) :
    wechatPara (x ++ y) = x ++ wechatPara y := by
  have hnly : '\n' ∉ y := fun hm => hnl (List.mem_append_right x hm)
  rw [wechatPara_eq_passes hnl, wechatPara_eq_passes hnly]
  unfold cjkSpace2 cjkSpace1 wechatPunct
  rw [wpAux_false_front (fun c hc => ⟨(hx c hc).1, (hx c hc).2.1⟩) y]
  rw [spacePass_front isLatin isCjk (fun c hc => (hx c hc).2.2.1) _]
  rw [spacePass_front isCjk isLatin (fun c hc => (hx c hc).2.2.2) _]

theorem wechatPara_ws_cons {c : Char} {r : List Char}
    (hh : r.head? = some c) (hdw : r.dropWhile isWs = r) (hnl : '\n' ∉ r) :
    wechatPara (' ' :: r) =
      if isFw c then wechatPara r else ' ' :: wechatPara r := by
  have hnlr : '\n' ∉ ' ' :: r := by
    intro hm
    rcases List.mem_cons.mp hm with h | h
    · exact absurd h (by decide)
    · exact hnl h
  have hwtf : wsThenFw r = isFw c := by
    unfold wsThenFw
    rw [hdw]
    cases r with
    | nil => simp at hh
    | cons d t =>
      simp only [List.head?_cons, Option.some_inj] at hh
      subst hh
      rfl
  have hwp : wpAux false (' ' :: r) =
      if isFw c then wpAux false r else ' ' :: wpAux false r := by
    rw [wpAux]
    rw [if_neg (by simp)]
    rw [if_neg (by simp [show isFw ' ' = false from by decide])]
    by_cases hfw : isFw c
    · rw [if_pos (by simp [hwtf, hfw, show isWs ' ' = true from by decide])]
      rw [if_pos hfw]
    · rw [if_neg (by simp [hwtf, hfw])]
      rw [if_neg hfw]
  rw [wechatPara_eq_passes hnlr, wechatPara_eq_passes hnl]
  unfold cjkSpace2 cjkSpace1 wechatPunct
  rw [hwp]
  by_cases hfw : isFw c
  · rw [if_pos hfw, if_pos hfw]
  · rw [if_neg hfw, if_neg hfw]
    rw [show (' ' :: wpAux false r) = [' '] ++ wpAux false r from rfl]
    rw [spacePass_front isLatin isCjk
      (by intro e he; rcases List.mem_singleton.mp he with rfl; decide) _]
    rw [show ([' '] ++ spacePass isLatin isCjk (wpAux false r)) =
      ' ' :: spacePass isLatin isCjk (wpAux false r) from rfl]
    rw [show (' ' :: spacePass isLatin isCjk (wpAux false r)) =
      [' '] ++ spacePass isLatin isCjk (wpAux false r) from rfl]
    rw [spacePass_front isCjk isLatin
      (by intro e he; rcases List.mem_singleton.mp he with rfl; decide) _]
    rfl

theorem wechatPara_hash_space {k : Nat} {c : Char} {r : List Char}
    (hh : r.head? = some c) (hdw : r.dropWhile isWs = r) (hnl : '\n' ∉ r) :
    wechatPara (List.replicate k '#' ++ ' ' :: r) =
      List.replicate k '#' ++
        (if isFw c then wechatPara r else ' ' :: wechatPara r) := by
  have hx : ∀ e ∈ List.replicate k '#',
      isWs e = false ∧ isFw e = false ∧ isLatin e = false ∧ isCjk e = false := by
    intro e he
    rw [List.eq_of_mem_replicate he]
    exact ⟨by decide, by decide, by decide, by decide⟩
  have hnl2 : '\n' ∉ List.replicate k '#' ++ ' ' :: r := by
    intro hm
    rcases List.mem_append.mp hm with h | h
    · exact absurd (List.eq_of_mem_replicate h) (by decide)
    · rcases List.mem_cons.mp h with h2 | h2
      · exact absurd h2 (by decide)
      · exact hnl h2
  rw [wechatPara_front hx hnl2, wechatPara_ws_cons hh hdw hnl]

theorem wechatPara_hash_one {m : Nat} :
    wechatPara (List.replicate m '#' ++ [' ']) =
      List.replicate m '#' ++ [' '] := by
  have hx : ∀ e ∈ List.replicate m '#',
      isWs e = false ∧ isFw e = false ∧ isLatin e = false ∧ isCjk e = false := by
    intro e he
    rw [List.eq_of_mem_replicate he]
    exact ⟨by decide, by decide, by decide, by decide⟩
  have hnl2 : '\n' ∉ List.replicate m '#' ++ [' '] := by
    intro hm
    rcases List.mem_append.mp hm with h | h
    · exact absurd (List.eq_of_mem_replicate h) (by decide)
    · exact absurd (List.mem_singleton.mp h) (by decide)
  rw [wechatPara_front hx hnl2]
  rw [show wechatPara [' '] = [' '] from by decide]

theorem unifyList_ne_nil {l : List Char} (h : l ≠ []) : unifyList l ≠ [] := by
  rcases l with _ | ⟨a, _ | ⟨b, rest⟩⟩
  · exact absurd rfl h
  · simp [unifyList]
  · simp only [unifyList]
    split <;> simp

theorem replicate_hash_head {m : Nat} (hm : 1 ≤ m) (r : List Char) :
    (List.replicate m '#' ++ r).head? = some '#' := by
  obtain ⟨n, rfl⟩ : ∃ n, m = n + 1 := ⟨m - 1, by omega⟩
  rw [List.replicate_succ]
  rfl

theorem replicate_hash_head0 {m : Nat} (hm : 1 ≤ m) :
    (List.replicate m '#').head? = some '#' := by
  obtain ⟨n, rfl⟩ : ∃ n, m = n + 1 := ⟨m - 1, by omega⟩
  rw [List.replicate_succ]
  rfl

theorem replicate_hash_getLast {m : Nat} (hm : 1 ≤ m) :
    (List.replicate m '#').getLast? = some '#' := by
  obtain ⟨n, rfl⟩ : ∃ n, m = n + 1 := ⟨m - 1, by omega⟩
  rw [List.replicate_succ']
  rw [List.getLast?_append_of_ne_nil (List.replicate n '#') (by simp)]
  rfl

theorem trim_hash_space {m : Nat} (hm : 1 ≤ m) :
    trimBoth (List.replicate m '#' ++ [' ']) = List.replicate m '#' := by
  rw [trimBoth_eq_rd_dw]
  rw [dropWhile_head_false (by
    intro c hc
    rw [replicate_hash_head hm [' ']] at hc
    simp only [Option.some_inj] at hc
    subst hc
    decide)]
  rw [List.rdropWhile_concat_pos isWs (List.replicate m '#') ' ' (by decide)]
  exact rdropWhile_getLast_false (by
    intro c hc
    rw [replicate_hash_getLast hm] at hc
    simp only [Option.some_inj] at hc
    subst hc
    decide)

theorem normalizeHeading_hash_block {k : Nat} {w : List Char}
    (hk1 : 1 ≤ k) (hk6 : k ≤ 6)
    (hw : ∀ c, w.head? = some c → ¬ c = '#' ∧ isWs c = false) :
    normalizeHeading (List.replicate k '#' ++ w) =
      List.replicate k '#' ++ ' ' :: w := by
  unfold normalizeHeading
  have htw : ((List.replicate k '#' ++ w).takeWhile (· = '#')) =
      List.replicate k '#' :=
    takeWhile_all_append _ _
      (fun c hc => by simp [List.eq_of_mem_replicate hc])
      (by intro c hc; simpa using (hw c hc).1)
  rw [htw]
  simp only [List.length_replicate]
  have hmin : min k 6 = k := by omega
  rw [hmin]
  have hdrop : (List.replicate k '#' ++ w).drop k = w := by
    have := List.drop_left (List.replicate k '#') w
    simpa using this
  rw [hdrop]
  rw [dropWhile_head_false (fun c hc => (hw c hc).2)]

theorem wechatPara_markerFree {l : List Char} (hnl : '\n' ∉ l)
    (hmf : markerFree l) (hh : ∀ e, l.head? = some e → isWs e = false) :
    markerFree (wechatPara l) := by
  intro a b r heq hm
  cases l with
  | nil => rw [wechatPara_nil] at heq; cases heq
  | cons a0 t =>
    have ha0 : isWs a0 = false := hh a0 rfl
    have hhead : (wechatPara (a0 :: t)).head? = some a0 := wechatPara_head rfl ha0
    rw [heq] at hhead
    simp only [List.head?_cons, Option.some_inj] at hhead
    subst hhead
    have hafl : isWs a = false ∧ isFw a = false ∧
        isLatin a = false ∧ isCjk a = false := by
      rcases hm with rfl | rfl
      · exact ⟨by decide, by decide, by decide, by decide⟩
      · exact ⟨by decide, by decide, by decide, by decide⟩
    have hfr : wechatPara (a :: t) = a :: wechatPara t :=
      @wechatPara_front [a] t
        (by intro e he; rcases List.mem_singleton.mp he with rfl; exact hafl)
        hnl
    rw [hfr] at heq
    simp only [List.cons.injEq] at heq
    have hwt : wechatPara t = b :: r := heq.2
    cases t with
    | nil => rw [wechatPara_nil] at hwt; cases hwt
    | cons c0 t0 =>
      have hc0 : isWs c0 = false := hmf a c0 t0 rfl hm
      have hbh : (wechatPara (c0 :: t0)).head? = some c0 :=
        wechatPara_head rfl hc0
      rw [hwt] at hbh
      simp only [List.head?_cons, Option.some_inj] at hbh
      rw [hbh]
      exact hc0

theorem structuralPara_intro (s : Settings) {p c3 c4 r : List Char}
    (h3 : (if s.unifyListMarker then unifyList (trimBoth p) else trimBoth p) = c3)
    (h4 : (if s.autoFormatHeadings && (c3.head? = some '#') then
        normalizeHeading c3 else c3) = c4)
    (h5 : (if s.wechatReady then wechatPara c4 else c4) = r) :
    structuralPara s p = r := by
  subst h3
  subst h4
  subst h5
  rfl

theorem unify_stage_hash (s : Settings) {q : List Char}
    (hq : q.head? = some '#') :
    (if s.unifyListMarker then unifyList q else q) = q := by
  split
  · exact unifyList_eq_of_markerFree (markerFree_of_head_hash hq)
  · rfl

theorem structuralPara_idem (s : Settings) {p : List Char} (hnl0 : '\n' ∉ p) :
    structuralPara s (structuralPara s p) = structuralPara s p := by
  by_cases hxe : trimBoth p = []
  · have h3 : (if s.unifyListMarker then unifyList (trimBoth p) else trimBoth p)
        = ([] : List Char) := by
      rw [hxe]
      cases s.unifyListMarker <;> rfl
    have h4 : (if s.autoFormatHeadings && ((([] : List Char)).head? = some '#')
        then normalizeHeading [] else ([] : List Char)) = ([] : List Char) := by
      simp
    have h5 : (if s.wechatReady then wechatPara [] else ([] : List Char))
        = ([] : List Char) := by
      rw [wechatPara_nil]
      exact ite_self _
    have hq : structuralPara s p = [] := structuralPara_intro s h3 h4 h5
    rw [hq]
    exact structuralPara_nil s
  · obtain ⟨a, ha⟩ : ∃ a, (trimBoth p).head? = some a := by
      cases hxc : trimBoth p with
      | nil => exact absurd hxc hxe
      | cons a t => exact ⟨a, rfl⟩
    have hanws : isWs a = false := trimBoth_head ha
    have hlastx : ∀ c, (trimBoth p).getLast? = some c → isWs c = false :=
      fun c hc => trimBoth_getLast hc
    have hxnl : '\n' ∉ trimBoth p := fun hm => hnl0 (trimBoth_mem hm)
    have hxhd : ∀ c, (trimBoth p).head? = some c → isWs c = false := by
      intro c hc
      rw [ha] at hc
      simp only [Option.some_inj] at hc
      subst hc
      exact hanws
    set y := if s.unifyListMarker then unifyList (trimBoth p) else trimBoth p
      with hydef
    have hyhd : ∀ c, y.head? = some c → isWs c = false := by
      rw [hydef]
      exact unify_stage_head s hxhd
    have hyne : y ≠ [] := by
      rw [hydef]
      split
      · exact unifyList_ne_nil hxe
      · exact hxe
    have hylast : ∀ c, y.getLast? = some c → isWs c = false := by
      rw [hydef]
      split
      · exact unifyList_getLast hlastx
      · exact hlastx
    have hynl : '\n' ∉ y := by
      rw [hydef]
      split
      · intro hm
        rcases unifyList_mem hm with hh | hh | hh
        · exact hxnl hh
        · exact absurd hh (by decide)
        · exact absurd hh (by decide)
      · exact hxnl
    have hymf : s.unifyListMarker = true → markerFree y := by
      intro hu
      rw [hydef, if_pos hu]
      exact unifyList_markerFree (trimBoth p)
    obtain ⟨b, hb⟩ : ∃ b, y.head? = some b := by
      cases hyc : y with
      | nil => exact absurd hyc hyne
      | cons b t => exact ⟨b, rfl⟩
    have hbnws : isWs b = false := hyhd b hb
    have h3main :
        (if s.unifyListMarker then unifyList (trimBoth p) else trimBoth p) = y :=
      hydef.symm
    by_cases hH : (s.autoFormatHeadings && (y.head? = some '#')) = true
    · have hAF : s.autoFormatHeadings = true := by
        simp only [Bool.and_eq_true, decide_eq_true_eq] at hH
        exact hH.1
      have hbhash : y.head? = some '#' := by
        simp only [Bool.and_eq_true, decide_eq_true_eq] at hH
        exact hH.2
      rcases normalizeHeading_cases hbhash hylast hynl with
        ⟨k, r, hk1, hk6, hz, hrne, hrdw, hrlast, hrnl⟩ | ⟨m, hm1, hm6, hzB⟩
      · have h4A : (if s.autoFormatHeadings && (y.head? = some '#') then
            normalizeHeading y else y) = List.replicate k '#' ++ ' ' :: r := by
          rw [if_pos hH]
          exact hz
        by_cases hW : s.wechatReady = true
        · obtain ⟨c, hc⟩ : ∃ c, r.head? = some c := by
            cases hrc : r with
            | nil => exact absurd hrc hrne
            | cons c t => exact ⟨c, rfl⟩
          have hcnws : isWs c = false := by
            have hc3 : (r.dropWhile isWs).head? = some c := by
              rw [hrdw]
              exact hc
            exact head_dropWhile_false hc3
          have hu_head : (wechatPara r).head? = some c := wechatPara_head hc hcnws
          have hu_ne : wechatPara r ≠ [] := by
            intro hcon
            rw [hcon] at hu_head
            simp at hu_head
          have hu_nl : '\n' ∉ wechatPara r := wechatPara_nlfree hrnl
          have hu_last : (wechatPara r).getLast? = r.getLast? :=
            wechatPara_getLast hrnl hrlast
          have hu_lastnws : ∀ e, (wechatPara r).getLast? = some e →
              isWs e = false :=
            fun e he => hrlast e (by rw [← hu_last]; exact he)
          have hu_dw : (wechatPara r).dropWhile isWs = wechatPara r :=
            dropWhile_head_false (by
              intro e he
              rw [hu_head] at he
              simp only [Option.some_inj] at he
              subst he
              exact hcnws)
          have hu_idem : wechatPara (wechatPara r) = wechatPara r :=
            wechatPara_idem hrnl
          have hwz : wechatPara (List.replicate k '#' ++ ' ' :: r) =
              List.replicate k '#' ++
                (if isFw c then wechatPara r else ' ' :: wechatPara r) :=
            wechatPara_hash_space hc hrdw hrnl
          by_cases hfw : isFw c = true
          · have h5A : (if s.wechatReady then
                wechatPara (List.replicate k '#' ++ ' ' :: r)
                else List.replicate k '#' ++ ' ' :: r)
                = List.replicate k '#' ++ wechatPara r := by
              rw [if_pos hW, hwz, if_pos hfw]
            have hq : structuralPara s p = List.replicate k '#' ++ wechatPara r :=
              structuralPara_intro s h3main h4A h5A
            rw [hq]
            have hqh : (List.replicate k '#' ++ wechatPara r).head? = some '#' :=
              replicate_hash_head hk1 _
            have hql : (List.replicate k '#' ++ wechatPara r).getLast? =
                (wechatPara r).getLast? :=
              List.getLast?_append_of_ne_nil (List.replicate k '#') hu_ne
            have htq : trimBoth (List.replicate k '#' ++ wechatPara r) =
                List.replicate k '#' ++ wechatPara r :=
              trimBoth_eq_self
                (by
                  intro e he
                  rw [hqh] at he
                  simp only [Option.some_inj] at he
                  subst he
                  decide)
                (by
                  intro e he
                  rw [hql] at he
                  exact hu_lastnws e he)
            have r2a : (if s.unifyListMarker then
                unifyList (trimBoth (List.replicate k '#' ++ wechatPara r))
                else trimBoth (List.replicate k '#' ++ wechatPara r))
                = List.replicate k '#' ++ wechatPara r := by
              rw [htq]
              exact unify_stage_hash s hqh
            have r2b : (if s.autoFormatHeadings &&
                ((List.replicate k '#' ++ wechatPara r).head? = some '#') then
                normalizeHeading (List.replicate k '#' ++ wechatPara r)
                else List.replicate k '#' ++ wechatPara r)
                = List.replicate k '#' ++ ' ' :: wechatPara r := by
              rw [if_pos (by simp [hAF, hqh])]
              exact normalizeHeading_hash_block hk1 hk6 (by
                intro e he
                rw [hu_head] at he
                simp only [Option.some_inj] at he
                subst he
                exact ⟨fw_ne_hash hfw, hcnws⟩)
            have r2c : (if s.wechatReady then
                wechatPara (List.replicate k '#' ++ ' ' :: wechatPara r)
                else List.replicate k '#' ++ ' ' :: wechatPara r)
                = List.replicate k '#' ++ wechatPara r := by
              rw [if_pos hW]
              rw [wechatPara_hash_space hu_head hu_dw hu_nl]
              rw [if_pos hfw, hu_idem]
            exact structuralPara_intro s r2a r2b r2c
          · have h5A : (if s.wechatReady then
                wechatPara (List.replicate k '#' ++ ' ' :: r)
                else List.replicate k '#' ++ ' ' :: r)
                = List.replicate k '#' ++ ' ' :: wechatPara r := by
              rw [if_pos hW, hwz, if_neg hfw]
            have hq : structuralPara s p =
                List.replicate k '#' ++ ' ' :: wechatPara r :=
              structuralPara_intro s h3main h4A h5A
            rw [hq]
            have hqh : (List.replicate k '#' ++ ' ' :: wechatPara r).head? =
                some '#' :=
              replicate_hash_head hk1 _
            have hql : (List.replicate k '#' ++ ' ' :: wechatPara r).getLast? =
                (wechatPara r).getLast? := by
              rw [List.getLast?_append_of_ne_nil (List.replicate k '#') (by simp)]
              rw [show (' ' :: wechatPara r) = [' '] ++ wechatPara r from rfl]
              rw [List.getLast?_append_of_ne_nil [' '] hu_ne]
            have htq : trimBoth (List.replicate k '#' ++ ' ' :: wechatPara r) =
                List.replicate k '#' ++ ' ' :: wechatPara r :=
              trimBoth_eq_self
                (by
                  intro e he
                  rw [hqh] at he
                  simp only [Option.some_inj] at he
                  subst he
                  decide)
                (by
                  intro e he
                  rw [hql] at he
                  exact hu_lastnws e he)
            have r2a : (if s.unifyListMarker then
                unifyList (trimBoth (List.replicate k '#' ++ ' ' :: wechatPara r))
                else trimBoth (List.replicate k '#' ++ ' ' :: wechatPara r))
                = List.replicate k '#' ++ ' ' :: wechatPara r := by
              rw [htq]
              exact unify_stage_hash s hqh
            have r2b : (if s.autoFormatHeadings &&
                ((List.replicate k '#' ++ ' ' :: wechatPara r).head? = some '#')
                then normalizeHeading (List.replicate k '#' ++ ' ' :: wechatPara r)
                else List.replicate k '#' ++ ' ' :: wechatPara r)
                = List.replicate k '#' ++ ' ' :: wechatPara r := by
              rw [if_pos (by simp [hAF, hqh])]
              exact normalizeHeading_fix hk1 hk6 hu_dw
            have r2c : (if s.wechatReady then
                wechatPara (List.replicate k '#' ++ ' ' :: wechatPara r)
                else List.replicate k '#' ++ ' ' :: wechatPara r)
                = List.replicate k '#' ++ ' ' :: wechatPara r := by
              rw [if_pos hW]
              rw [wechatPara_hash_space hu_head hu_dw hu_nl]
              rw [if_neg hfw, hu_idem]
            exact structuralPara_intro s r2a r2b r2c
        · have h5A : (if s.wechatReady then
              wechatPara (List.replicate k '#' ++ ' ' :: r)
              else List.replicate k '#' ++ ' ' :: r)
              = List.replicate k '#' ++ ' ' :: r := by
            rw [if_neg hW]
          have hq : structuralPara s p = List.replicate k '#' ++ ' ' :: r :=
            structuralPara_intro s h3main h4A h5A
          rw [hq]
          have hqh : (List.replicate k '#' ++ ' ' :: r).head? = some '#' :=
            replicate_hash_head hk1 _
          have hql : (List.replicate k '#' ++ ' ' :: r).getLast? =
              r.getLast? := by
            rw [List.getLast?_append_of_ne_nil (List.replicate k '#') (by simp)]
            rw [show (' ' :: r) = [' '] ++ r from rfl]
            rw [List.getLast?_append_of_ne_nil [' '] hrne]
          have htq : trimBoth (List.replicate k '#' ++ ' ' :: r) =
              List.replicate k '#' ++ ' ' :: r :=
            trimBoth_eq_self
              (by
                intro e he
                rw [hqh] at he
                simp only [Option.some_inj] at he
                subst he
                decide)
              (by
                intro e he
                rw [hql] at he
                exact hrlast e he)
          have r2a : (if s.unifyListMarker then
              unifyList (trimBoth (List.replicate k '#' ++ ' ' :: r))
              else trimBoth (List.replicate k '#' ++ ' ' :: r))
              = List.replicate k '#' ++ ' ' :: r := by
            rw [htq]
            exact unify_stage_hash s hqh
          have r2b : (if s.autoFormatHeadings &&
              ((List.replicate k '#' ++ ' ' :: r).head? = some '#') then
              normalizeHeading (List.replicate k '#' ++ ' ' :: r)
              else List.replicate k '#' ++ ' ' :: r)
              = List.replicate k '#' ++ ' ' :: r := by
            rw [if_pos (by simp [hAF, hqh])]
            exact normalizeHeading_fix hk1 hk6 hrdw
          have r2c : (if s.wechatReady then
              wechatPara (List.replicate k '#' ++ ' ' :: r)
              else List.replicate k '#' ++ ' ' :: r)
              = List.replicate k '#' ++ ' ' :: r := by
            rw [if_neg hW]
          exact structuralPara_intro s r2a r2b r2c
      · have h4B : (if s.autoFormatHeadings && (y.head? = some '#') then
            normalizeHeading y else y) = List.replicate m '#' ++ [' '] := by
          rw [if_pos hH]
          exact hzB
        have h5B : (if s.wechatReady then
            wechatPara (List.replicate m '#' ++ [' '])
            else List.replicate m '#' ++ [' '])
            = List.replicate m '#' ++ [' '] := by
          split
          · exact wechatPara_hash_one
          · rfl
        have hq : structuralPara s p = List.replicate m '#' ++ [' '] :=
          structuralPara_intro s h3main h4B h5B
        rw [hq]
        have hqh0 : (List.replicate m '#').head? = some '#' :=
          replicate_hash_head0 hm1
        have r2a : (if s.unifyListMarker then
            unifyList (trimBoth (List.replicate m '#' ++ [' ']))
            else trimBoth (List.replicate m '#' ++ [' ']))
            = List.replicate m '#' := by
          rw [trim_hash_space hm1]
          exact unify_stage_hash s hqh0
        have r2b : (if s.autoFormatHeadings &&
            ((List.replicate m '#').head? = some '#') then
            normalizeHeading (List.replicate m '#')
            else List.replicate m '#')
            = List.replicate m '#' ++ [' '] := by
          rw [if_pos (by simp [hAF, hqh0])]
          exact normalizeHeading_hashes hm1 hm6
        exact structuralPara_intro s r2a r2b h5B
    · by_cases hW : s.wechatReady = true
      · have h4N : (if s.autoFormatHeadings && (y.head? = some '#') then
            normalizeHeading y else y) = y := by
          rw [if_neg hH]
        have h5N : (if s.wechatReady then wechatPara y else y) = wechatPara y := by
          rw [if_pos hW]
        have hq : structuralPara s p = wechatPara y :=
          structuralPara_intro s h3main h4N h5N
        rw [hq]
        have hqh : (wechatPara y).head? = some b := wechatPara_head hb hbnws
        have hql : (wechatPara y).getLast? = y.getLast? :=
          wechatPara_getLast hynl hylast
        have htq : trimBoth (wechatPara y) = wechatPara y :=
          trimBoth_eq_self
            (by
              intro e he
              rw [hqh] at he
              simp only [Option.some_inj] at he
              subst he
              exact hbnws)
            (by
              intro e he
              rw [hql] at he
              exact hylast e he)
        have hcond :
            (s.autoFormatHeadings && ((wechatPara y).head? = some '#')) = false := by
          by_cases hA : s.autoFormatHeadings = true
          · have hyhash : ¬ (y.head? = some '#') := by
              intro hcon
              exact hH (by simp [hA, hcon])
            have hbne : ¬ b = '#' := by
              intro hcon
              subst hcon
              exact hyhash hb
            simp [hqh, hA, hbne]
          · have hAf : s.autoFormatHeadings = false := by simpa using hA
            simp [hAf]
        have r2a : (if s.unifyListMarker then unifyList (trimBoth (wechatPara y))
            else trimBoth (wechatPara y)) = wechatPara y := by
          rw [htq]
          by_cases hu : s.unifyListMarker = true
          · rw [if_pos hu]
            exact unifyList_eq_of_markerFree
              (wechatPara_markerFree hynl (hymf hu) hyhd)
          · rw [if_neg hu]
        have r2b : (if s.autoFormatHeadings &&
            ((wechatPara y).head? = some '#') then
            normalizeHeading (wechatPara y) else wechatPara y) = wechatPara y := by
          rw [if_neg (by simp [hcond])]
        have r2c : (if s.wechatReady then wechatPara (wechatPara y)
            else wechatPara y) = wechatPara y := by
          rw [if_pos hW]
          exact wechatPara_idem hynl
        exact structuralPara_intro s r2a r2b r2c
      · have h4N : (if s.autoFormatHeadings && (y.head? = some '#') then
            normalizeHeading y else y) = y := by
          rw [if_neg hH]
        have h5N : (if s.wechatReady then wechatPara y else y) = y := by
          rw [if_neg hW]
        have hq : structuralPara s p = y :=
          structuralPara_intro s h3main h4N h5N
        rw [hq]
        have htq : trimBoth y = y := trimBoth_eq_self hyhd hylast
        have r2a : (if s.unifyListMarker then unifyList (trimBoth y)
            else trimBoth y) = y := by
          rw [htq]
          by_cases hu : s.unifyListMarker = true
          · rw [if_pos hu]
            exact unifyList_eq_of_markerFree (hymf hu)
          · rw [if_neg hu]
        exact structuralPara_intro s r2a h4N h5N

theorem splitNl_nlfree_id : ∀ {q : List Char}, '\n' ∉ q → splitNl q = [q] := by
  intro q
  induction q with
  | nil => intro _; rfl
  | cons c rest ih =>
    intro h
    have hc : ¬ c = '\n' := fun hh => h (by simp [hh])
    have hrest : '\n' ∉ rest := fun hm => h (List.mem_cons_of_mem c hm)
    simp only [splitNl]
    rw [if_neg hc, ih hrest]

theorem splitNl_append_nl : ∀ {q : List Char}, '\n' ∉ q → ∀ rest,
    splitNl (q ++ '\n' :: rest) = q :: splitNl rest := by
  intro q
  induction q with
  | nil =>
    intro _ rest
    simp [splitNl]
  | cons c q2 ih =>
    intro h rest
    have hc : ¬ c = '\n' := fun hh => h (by simp [hh])
    have hq2 : '\n' ∉ q2 := fun hm => h (List.mem_cons_of_mem c hm)
    rw [List.cons_append]
    simp only [splitNl]
    rw [if_neg hc, ih hq2 rest]

theorem joinBlank_one (q : List Char) : joinBlank [q] = q := by
  simp [joinBlank]

theorem joinBlank_cons2 (q z : List Char) (zs : List (List Char)) :
    joinBlank (q :: z :: zs) = q ++ '\n' :: '\n' :: joinBlank (z :: zs) := rfl

theorem splitNl_joinBlank : ∀ (qs : List (List Char)),
    (∀ q ∈ qs, '\n' ∉ q) → splitNl (joinBlank qs) = sepNil qs := by
  intro qs
  induction qs with
  | nil => intro _; rfl
  | cons q rest ih =>
    intro h
    cases rest with
    | nil =>
      rw [joinBlank_one, splitNl_nlfree_id (h q (by simp))]
      rfl
    | cons z zs =>
      rw [joinBlank_cons2]
      rw [splitNl_append_nl (h q (by simp)) _]
      rw [show splitNl ('\n' :: joinBlank (z :: zs)) =
          [] :: splitNl (joinBlank (z :: zs)) from by simp [splitNl]]
      rw [ih (fun p hp => h p (List.mem_cons_of_mem q hp))]
      rfl

theorem joinBlank_head {q : List Char} (qs : List (List Char)) (hq : q ≠ []) :
    (joinBlank (q :: qs)).head? = q.head? := by
  cases qs with
  | nil => rw [joinBlank_one]
  | cons z zs =>
    rw [joinBlank_cons2]
    cases q with
    | nil => exact absurd rfl hq
    | cons a t => rfl

theorem joinBlank_ne_nil {q : List Char} (qs : List (List Char)) (hq : q ≠ []) :
    joinBlank (q :: qs) ≠ [] := by
  intro hcon
  have hh := joinBlank_head qs hq
  rw [hcon] at hh
  cases q with
  | nil => exact hq rfl
  | cons a t => simp at hh

theorem cnAux_front : ∀ {q : List Char}, '\n' ∉ q → ∀ rest,
    cnAux false (q ++ rest) = q ++ cnAux false rest := by
  intro q
  induction q with
  | nil => intro _ rest; rfl
  | cons c q2 ih =>
    intro h rest
    have hc : ¬ c = '\n' := fun hh => h (by simp [hh])
    rw [List.cons_append]
    rw [cnAux]
    rw [if_neg (by simp), if_neg (by simp [hc])]
    rw [ih (fun hm => h (List.mem_cons_of_mem c hm)) rest]
    rfl

theorem takeWhile_head_false {p : Char → Bool} {l : List Char}
    (h : ∀ c, l.head? = some c → p c = false) : l.takeWhile p = [] := by
  cases l with
  | nil => rfl
  | cons a rest =>
    rw [List.takeWhile_cons, h a rfl]
    simp

theorem collapseNl_joinBlank : ∀ (qs : List (List Char)),
    (∀ q ∈ qs, q ≠ [] ∧ '\n' ∉ q) →
    collapseNl (joinBlank qs) = joinBlank qs := by
  intro qs
  induction qs with
  | nil => intro _; rfl
  | cons q rest ih =>
    intro h
    cases rest with
    | nil =>
      rw [joinBlank_one]
      exact cnAux_nlfree_id false q (h q (by simp)).2
    | cons z zs =>
      obtain ⟨hqne, hqnl⟩ := h q (by simp)
      obtain ⟨hzne, hznl⟩ := h z (by simp [List.mem_cons])
      cases z with
      | nil => exact absurd rfl hzne
      | cons a t =>
        have hanl : ¬ a = '\n' := fun hcon => hznl (by simp [hcon])
        rw [joinBlank_cons2]
        unfold collapseNl
        rw [cnAux_front hqnl _]
        have hJhd : (joinBlank ((a :: t) :: zs)).head? = some a := by
          rw [joinBlank_head zs (by simp)]
          rfl
        have htw : (joinBlank ((a :: t) :: zs)).takeWhile (· = '\n') = [] :=
          takeWhile_head_false (by
            intro c hc
            rw [hJhd] at hc
            simp only [Option.some_inj] at hc
            subst hc
            simp [hanl])
        have hstep2 : cnAux false ('\n' :: joinBlank ((a :: t) :: zs)) =
            '\n' :: cnAux false (joinBlank ((a :: t) :: zs)) := by
          rw [cnAux]
          rw [if_neg (by simp)]
          rw [if_neg (by simp [htw])]
        have hstep1 : cnAux false ('\n' :: '\n' :: joinBlank ((a :: t) :: zs)) =
            '\n' :: '\n' :: cnAux false (joinBlank ((a :: t) :: zs)) := by
          rw [cnAux]
          rw [if_neg (by simp)]
          rw [if_neg (by simp [List.takeWhile_cons, htw])]
          rw [hstep2]
        rw [hstep1]
        have hih := ih (fun p hp => h p (List.mem_cons_of_mem q hp))
        unfold collapseNl at hih
        rw [hih]

theorem rdropWhile_append_right {p : Char → Bool} {a b : List Char}
    (h : List.rdropWhile p b ≠ []) :
    List.rdropWhile p (a ++ b) = a ++ List.rdropWhile p b := by
  have hne : b.reverse.dropWhile p ≠ [] := by
    intro hcon
    rw [List.rdropWhile, hcon] at h
    simp at h
  rw [List.rdropWhile, List.rdropWhile, List.reverse_append]
  rw [List.dropWhile_append, if_neg (by simpa using hne)]
  rw [List.reverse_append, List.reverse_reverse]

theorem rdropWhile_ne_nil_head {q : List Char} (hq : q ≠ [])
    (hh : ∀ c, q.head? = some c → isWs c = false) :
    List.rdropWhile isWs q ≠ [] := by
  intro hcon
  rw [List.rdropWhile_eq_nil_iff] at hcon
  cases q with
  | nil => exact hq rfl
  | cons a t =>
    have ha := hcon a (by simp)
    rw [hh a rfl] at ha
    cases ha

theorem lastTrimR_mem : ∀ {qs : List (List Char)} {q : List Char},
    q ∈ lastTrimR qs →
    q ∈ qs ∨ ∃ q0, q0 ∈ qs ∧ q = List.rdropWhile isWs q0 := by
  intro qs
  induction qs with
  | nil =>
    intro q hq
    simp [lastTrimR] at hq
  | cons a rest ih =>
    intro q hq
    cases rest with
    | nil =>
      rw [show lastTrimR [a] = [List.rdropWhile isWs a] from rfl] at hq
      rcases List.mem_singleton.mp hq with rfl
      exact Or.inr ⟨a, by simp, rfl⟩
    | cons b rest2 =>
      rw [show lastTrimR (a :: b :: rest2) = a :: lastTrimR (b :: rest2)
        from rfl] at hq
      rcases List.mem_cons.mp hq with rfl | hq2
      · exact Or.inl (by simp)
      · rcases ih hq2 with hin | ⟨q0, hq0, heq⟩
        · exact Or.inl (List.mem_cons_of_mem a hin)
        · exact Or.inr ⟨q0, List.mem_cons_of_mem a hq0, heq⟩

theorem rdropWhile_joinBlank : ∀ (qs : List (List Char)),
    (∀ q ∈ qs, q ≠ [] ∧ (∀ c, q.head? = some c → isWs c = false)) →
    List.rdropWhile isWs (joinBlank qs) = joinBlank (lastTrimR qs) := by
  intro qs
  induction qs with
  | nil => intro _; rfl
  | cons q rest ih =>
    intro h
    cases rest with
    | nil =>
      rw [joinBlank_one]
      rw [show lastTrimR [q] = [List.rdropWhile isWs q] from rfl]
      rw [joinBlank_one]
    | cons z zs =>
      obtain ⟨hqne, hqh⟩ := h q (by simp)
      obtain ⟨hzne, hzh⟩ := h z (by simp [List.mem_cons])
      have hrec := ih (fun p hp => h p (List.mem_cons_of_mem q hp))
      have hJne : joinBlank (lastTrimR (z :: zs)) ≠ [] := by
        cases zs with
        | nil =>
          rw [show lastTrimR [z] = [List.rdropWhile isWs z] from rfl]
          rw [joinBlank_one]
          exact rdropWhile_ne_nil_head hzne hzh
        | cons w ws =>
          rw [show lastTrimR (z :: w :: ws) = z :: lastTrimR (w :: ws)
            from rfl]
          exact joinBlank_ne_nil _ hzne
      have hrdJ : List.rdropWhile isWs (joinBlank (z :: zs)) ≠ [] := by
        rw [hrec]
        exact hJne
      have hb : List.rdropWhile isWs ('\n' :: '\n' :: joinBlank (z :: zs)) =
          '\n' :: '\n' :: List.rdropWhile isWs (joinBlank (z :: zs)) :=
        @rdropWhile_append_right isWs ['\n', '\n'] (joinBlank (z :: zs)) hrdJ
      obtain ⟨L0, Ls, hL⟩ : ∃ L0 Ls, lastTrimR (z :: zs) = L0 :: Ls := by
        cases zs with
        | nil => exact ⟨List.rdropWhile isWs z, [], rfl⟩
        | cons w ws => exact ⟨z, lastTrimR (w :: ws), rfl⟩
      rw [joinBlank_cons2]
      rw [@rdropWhile_append_right isWs q ('\n' :: '\n' :: joinBlank (z :: zs))
        (by rw [hb]; simp)]
      rw [hb, hrec]
      rw [show lastTrimR (q :: z :: zs) = q :: lastTrimR (z :: zs) from rfl]
      rw [hL, joinBlank_cons2]

theorem assembly_plain (s : Settings) : ∀ (qs : List (List Char)),
    (∀ q ∈ qs, q ≠ [] ∧ structuralPara s q = q) →
    ((sepNil qs).map (fun q => structuralPara s q)).filter
      (fun p => p.length ≠ 0) = qs := by
  intro qs
  induction qs with
  | nil =>
    intro _
    rw [show sepNil [] = [[]] from rfl]
    simp [structuralPara_nil]
  | cons q rest ih =>
    intro h
    obtain ⟨hqne, hqfix⟩ := h q (by simp)
    cases rest with
    | nil =>
      rw [show sepNil [q] = [q] from rfl]
      simp only [List.map_cons, List.map_nil, hqfix]
      rw [List.filter_cons, if_pos (by simpa using hqne)]
      rfl
    | cons z zs =>
      rw [show sepNil (q :: z :: zs) = q :: [] :: sepNil (z :: zs) from rfl]
      simp only [List.map_cons]
      rw [hqfix, structuralPara_nil]
      rw [List.filter_cons, if_pos (by simpa using hqne)]
      rw [List.filter_cons, if_neg (by simp)]
      rw [ih (fun p hp => h p (List.mem_cons_of_mem q hp))]

theorem assembly_wechat (s : Settings) : ∀ (qs : List (List Char)),
    (∀ q ∈ qs, q ≠ [] ∧ structuralPara s q = q ∧
      structuralPara s (List.rdropWhile isWs q) = q) →
    ((sepNil (lastTrimR qs)).map (fun q => structuralPara s q)).filter
      (fun p => p.length ≠ 0) = qs := by
  intro qs
  induction qs with
  | nil =>
    intro _
    rw [show lastTrimR [] = [] from rfl, show sepNil [] = [[]] from rfl]
    simp [structuralPara_nil]
  | cons q rest ih =>
    intro h
    obtain ⟨hqne, hqfix, hqrt⟩ := h q (by simp)
    cases rest with
    | nil =>
      rw [show lastTrimR [q] = [List.rdropWhile isWs q] from rfl]
      rw [show sepNil [List.rdropWhile isWs q] = [List.rdropWhile isWs q]
        from rfl]
      simp only [List.map_cons, List.map_nil, hqrt]
      rw [List.filter_cons, if_pos (by simpa using hqne)]
      rfl
    | cons z zs =>
      rw [show lastTrimR (q :: z :: zs) = q :: lastTrimR (z :: zs) from rfl]
      obtain ⟨L0, Ls, hL⟩ : ∃ L0 Ls, lastTrimR (z :: zs) = L0 :: Ls := by
        cases zs with
        | nil => exact ⟨List.rdropWhile isWs z, [], rfl⟩
        | cons w ws => exact ⟨z, lastTrimR (w :: ws), rfl⟩
      rw [hL]
      rw [show sepNil (q :: L0 :: Ls) = q :: [] :: sepNil (L0 :: Ls) from rfl]
      simp only [List.map_cons]
      rw [hqfix, structuralPara_nil]
      rw [List.filter_cons, if_pos (by simpa using hqne)]
      rw [List.filter_cons, if_neg (by simp)]
      rw [← hL]
      rw [ih (fun p hp => h p (List.mem_cons_of_mem q hp))]

theorem trimBoth_rdropWhile (l : List Char) :
    trimBoth (List.rdropWhile isWs l) = trimBoth l := by
  by_cases hd : l.dropWhile isWs = []
  · have hall : ∀ x ∈ l, isWs x = true := by
      rw [List.dropWhile_eq_nil_iff] at hd
      exact hd
    have hr : List.rdropWhile isWs l = [] := List.rdropWhile_eq_nil_iff.mpr hall
    have htl : trimBoth l = [] := by
      rw [trimBoth_eq_rd_dw, hd]
      rfl
    rw [hr, htl]
    rfl
  · obtain ⟨c, hc⟩ : ∃ c, (l.dropWhile isWs).head? = some c := by
      cases hdc : l.dropWhile isWs with
      | nil => exact absurd hdc hd
      | cons a t => exact ⟨a, rfl⟩
    have hcnws : isWs c = false := head_dropWhile_false hc
    have hrdm_ne : List.rdropWhile isWs (l.dropWhile isWs) ≠ [] :=
      rdropWhile_ne_nil_head hd (by
        intro e he
        rw [hc] at he
        simp only [Option.some_inj] at he
        subst he
        exact hcnws)
    have h1 : List.rdropWhile isWs l =
        l.takeWhile isWs ++ List.rdropWhile isWs (l.dropWhile isWs) := by
      conv_lhs => rw [← List.takeWhile_append_dropWhile isWs l]
      exact @rdropWhile_append_right isWs (l.takeWhile isWs)
        (l.dropWhile isWs) hrdm_ne
    rw [h1, trimBoth_eq_rd_dw]
    have hh2 : ∀ e, (List.rdropWhile isWs (l.dropWhile isWs)).head? = some e →
        isWs e = false := by
      intro e he
      have hpre := front_head ( List.rdropWhile_prefix isWs (l.dropWhile isWs))
        hrdm_ne
      rw [he, hc] at hpre
      simp only [Option.some_inj] at hpre
      rw [hpre] at hcnws
      exact hcnws
    rw [dropWhile_all_append (l.takeWhile isWs) _
      (fun e he => List.mem_takeWhile_imp he) hh2]
    rw [trimBoth_eq_rd_dw]
    exact rdropWhile_getLast_false (fun e he => getLast_rdropWhile_false he)

theorem structuralPara_trim_congr (s : Settings) {x1 x2 : List Char}
    (h : trimBoth x1 = trimBoth x2) :
    structuralPara s x1 = structuralPara s x2 := by
  simp only [structuralPara, h]

theorem structuralPara_rtrim (s : Settings) {p : List Char} (hnl0 : '\n' ∉ p) :
    structuralPara s (List.rdropWhile isWs (structuralPara s p)) =
      structuralPara s p := by
  rw [structuralPara_trim_congr s (trimBoth_rdropWhile (structuralPara s p))]
  exact structuralPara_idem s hnl0

/-- C9: with `removeMarkdown` off and the AI source `none` (the other
flags arbitrary), `cleanFormat` is idempotent: running `clean` on the
result of `clean` returns that result unchanged. -/
theorem claim_C9 (s : Settings) (t : List Char)
    (h1 : s.removeMarkdown = false) (h2 : s.defaultAISource = AISource.none) :
    (cleanFormat s (cleanFormat s t).1).1 = (cleanFormat s t).1 := by
  have hclean : ∀ (u : List Char), (cleanFormat s u).1 =
      if s.wechatReady then
        collapseNl (trimBoth (joinBlank
          (((splitNl u).map (fun p => structuralPara s p)).filter
            (fun p => p.length ≠ 0))))
      else
        joinBlank (((splitNl u).map (fun p => structuralPara s p)).filter
          (fun p => p.length ≠ 0)) := by
    intro u
    have hunf : (cleanFormat s u).1 =
        (if s.wechatReady then
          collapseNl (trimBoth
            (((((splitNl u).map (processPara s (compilePatterns s))).map
              Prod.fst).filter (fun p => p.length ≠ 0)).intersperse
              ['\n', '\n']).flatten)
        else
          (((((splitNl u).map (processPara s (compilePatterns s))).map
            Prod.fst).filter (fun p => p.length ≠ 0)).intersperse
            ['\n', '\n']).flatten) := rfl
    rw [hunf, List.map_map]
    rw [show (Prod.fst ∘ processPara s (compilePatterns s)) =
      (fun p => (processPara s (compilePatterns s) p).1) from rfl]
    rw [List.map_congr_left
      (fun p _ => processPara_structural s (compilePatterns s) h1 h2 p)]
    rfl
  have hQ : ∀ q ∈ ((splitNl t).map (fun p => structuralPara s p)).filter
      (fun p => p.length ≠ 0),
      q ≠ [] ∧ '\n' ∉ q ∧ (∀ c, q.head? = some c → isWs c = false) ∧
      structuralPara s q = q ∧
      structuralPara s (List.rdropWhile isWs q) = q := by
    intro q hq
    rw [List.mem_filter] at hq
    obtain ⟨hq1, hq2⟩ := hq
    rw [List.mem_map] at hq1
    obtain ⟨p0, hp0, rfl⟩ := hq1
    have hp0nl : '\n' ∉ p0 := splitNl_nlfree t p0 hp0
    refine ⟨?_, structuralPara_nlfree s hp0nl, structuralPara_head s p0,
      structuralPara_idem s hp0nl, structuralPara_rtrim s hp0nl⟩
    intro hcon
    rw [hcon] at hq2
    simp at hq2
  set qs1 := ((splitNl t).map (fun p => structuralPara s p)).filter
      (fun p => p.length ≠ 0) with hqs1
  by_cases hW : s.wechatReady = true
  · cases hqs0 : qs1 with
    | nil =>
      have hF : (cleanFormat s t).1 = [] := by
        rw [hclean t, if_pos hW, ← hqs1, hqs0]
        rfl
      rw [hF]
      rw [hclean [], if_pos hW]
      rw [show splitNl ([] : List Char) = [[]] from rfl]
      rw [show (([[]] : List (List Char)).map (fun p => structuralPara s p))
        = [[]] from by simp [structuralPara_nil]]
      rw [show (([[]] : List (List Char)).filter (fun p => p.length ≠ 0))
        = [] from by simp]
      rfl
    | cons q1 qrest =>
      have hmem : ∀ q ∈ q1 :: qrest, q ≠ [] ∧ '\n' ∉ q ∧
          (∀ c, q.head? = some c → isWs c = false) ∧
          structuralPara s q = q ∧
          structuralPara s (List.rdropWhile isWs q) = q := by
        intro q hqm
        apply hQ
        rw [hqs0]
        exact hqm
      have hJhd : (joinBlank (q1 :: qrest)).head? = q1.head? :=
        joinBlank_head qrest (hmem q1 (by simp)).1
      have htb : trimBoth (joinBlank (q1 :: qrest)) =
          joinBlank (lastTrimR (q1 :: qrest)) := by
        rw [trimBoth_eq_rd_dw]
        rw [dropWhile_head_false (by
          intro c hc
          rw [hJhd] at hc
          exact (hmem q1 (by simp)).2.2.1 c hc)]
        exact rdropWhile_joinBlank (q1 :: qrest)
          (fun q hqm => ⟨(hmem q hqm).1, (hmem q hqm).2.2.1⟩)
      have hparts : ∀ q ∈ lastTrimR (q1 :: qrest), q ≠ [] ∧ '\n' ∉ q := by
        intro q hqm
        rcases lastTrimR_mem hqm with hin | ⟨q0, hq0in, rfl⟩
        · exact ⟨(hmem q hin).1, (hmem q hin).2.1⟩
        · constructor
          · exact rdropWhile_ne_nil_head (hmem q0 hq0in).1
              (hmem q0 hq0in).2.2.1
          · intro hm
            exact (hmem q0 hq0in).2.1
              (( List.rdropWhile_prefix isWs q0).sublist.subset hm)
      have hcoll : collapseNl (joinBlank (lastTrimR (q1 :: qrest))) =
          joinBlank (lastTrimR (q1 :: qrest)) :=
        collapseNl_joinBlank (lastTrimR (q1 :: qrest)) hparts
      have hF : (cleanFormat s t).1 = joinBlank (lastTrimR (q1 :: qrest)) := by
        rw [hclean t, if_pos hW, ← hqs1, hqs0, htb, hcoll]
      rw [hF]
      rw [hclean (joinBlank (lastTrimR (q1 :: qrest))), if_pos hW]
      rw [splitNl_joinBlank (lastTrimR (q1 :: qrest))
        (fun q hqm => (hparts q hqm).2)]
      rw [assembly_wechat s (q1 :: qrest) (fun q hqm =>
        ⟨(hmem q hqm).1, (hmem q hqm).2.2.2.1, (hmem q hqm).2.2.2.2⟩)]
      rw [htb, hcoll]
  · have hF : (cleanFormat s t).1 = joinBlank qs1 := by
      rw [hclean t, if_neg hW, ← hqs1]
    rw [hF]
    rw [hclean (joinBlank qs1), if_neg hW]
    rw [splitNl_joinBlank qs1 (fun q hqm => (hQ q hqm).2.1)]
    rw [assembly_plain s qs1 (fun q hqm =>
      ⟨(hQ q hqm).1, (hQ q hqm).2.2.2.1⟩)]

/-- Witness for C9 at a concrete input: all three structural flags on,
rules off, on the text `"## a"`. -/
theorem claim_C9_witness :
    (⟨false, true, true, [], AISource.none, true,
      ⟨[], []⟩⟩ : Settings).removeMarkdown = false ∧
    (⟨false, true, true, [], AISource.none, true,
      ⟨[], []⟩⟩ : Settings).defaultAISource = AISource.none ∧
    (cleanFormat ⟨false, true, true, [], AISource.none, true, ⟨[], []⟩⟩
      (cleanFormat ⟨false, true, true, [], AISource.none, true, ⟨[], []⟩⟩
        ['#', '#', ' ', 'a']).1).1 =
      (cleanFormat ⟨false, true, true, [], AISource.none, true, ⟨[], []⟩⟩
        ['#', '#', ' ', 'a']).1 :=
  ⟨rfl, rfl,
    claim_C9 ⟨false, true, true, [], AISource.none, true, ⟨[], []⟩⟩
      ['#', '#', ' ', 'a'] rfl rfl⟩

theorem wpAux_eq_strip : ∀ (l : List Char) (prev : Option Char),
    wpAux (prevFw prev) l = stripFwWs prev l := by
  intro l
  induction l with
  | nil => intro prev; rfl
  | cons c rest ih =>
    intro prev
    by_cases hskip : (prevFw prev && isWs c) = true
    · rw [wpAux, if_pos hskip]
      simp only [Bool.and_eq_true] at hskip
      rw [stripFwWs, if_pos (by simp [hskip.1, hskip.2])]
      have := ih prev
      rw [hskip.1] at this
      exact this
    · by_cases hfw : isFw c = true
      · rw [wpAux, if_neg hskip, if_pos hfw]
        rw [stripFwWs, if_neg (by simp [fw_not_ws hfw]),
          if_neg (by simp [fw_not_ws hfw])]
        have := ih (some c)
        rw [show prevFw (some c) = true from by simp [prevFw, hfw]] at this
        rw [this]
      · by_cases hws : isWs c = true
        · have hpv : prevFw prev = false := by
            by_contra hcon
            rw [Bool.not_eq_false] at hcon
            exact hskip (by simp [hcon, hws])
          by_cases hwtf : wsThenFw rest = true
          · rw [wpAux, if_neg hskip, if_neg hfw,
              if_pos (by simp [hws, hwtf])]
            rw [stripFwWs, if_pos (by simp [hws, hwtf])]
            have := ih prev
            rw [hpv] at this
            exact this
          · rw [wpAux, if_neg hskip, if_neg hfw,
              if_neg (by simp [hws, hwtf])]
            rw [stripFwWs, if_neg (by simp [hws, hpv, hwtf]), if_pos hws]
            have := ih prev
            rw [hpv] at this
            rw [this]
        · rw [wpAux, if_neg hskip, if_neg hfw, if_neg (by simp [hws])]
          rw [stripFwWs, if_neg (by simp [hws]), if_neg (by simp [hws])]
          have := ih (some c)
          rw [show prevFw (some c) = false from by simp [prevFw, hfw]] at this
          rw [this]

theorem wechatPunct_eq_strip (l : List Char) :
    wechatPunct l = stripFwWs none l := by
  unfold wechatPunct
  have := wpAux_eq_strip l none
  rw [show prevFw none = false from rfl] at this
  exact this

theorem spacePass_eq_everywhere (f g : Char → Bool)
    (hdisj : ∀ c, g c = true → f c = false) :
    ∀ l, spacePass f g l = spaceEverywhere f g l := by
  intro l
  induction l using spacePass.induct f g with
  | case1 => rfl
  | case2 a => rfl
  | case3 a b rest hfg ih =>
    rw [spacePass, if_pos hfg, spaceEverywhere, if_pos hfg]
    simp only [Bool.and_eq_true] at hfg
    cases rest with
    | nil => rfl
    | cons c r =>
      have hb : f b = false := hdisj b hfg.2
      rw [show spaceEverywhere f g (b :: c :: r) =
          b :: spaceEverywhere f g (c :: r) from by
        rw [spaceEverywhere, if_neg (by simp [hb])]]
      rw [ih]
  | case4 a b rest hfg ih =>
    rw [spacePass, if_neg (by simpa using hfg), spaceEverywhere,
      if_neg (by simpa using hfg)]
    rw [ih]

/-- C7: with `wechatReady` on, the per-paragraph WeChat pass is exactly
the spec's transform, for every newline-free paragraph: first every
whitespace character whose nearest non-whitespace neighbour on either
side is one of the full-width marks ，。！？；：、 is deleted
(`stripFwWs` — whitespace stripped immediately around every mark), then
one space is inserted at every Latin-or-digit → CJK boundary and then at
every CJK → Latin-or-digit boundary (`spaceEverywhere`, both
directions, every adjacent pair inspected); and through the whole
pipeline `"hello世界"` becomes `"hello 世界"`, `"世界hello"` becomes
`"世界 hello"`, `"中 ，文"` becomes `"中，文"`, the two-mark paragraph
`"中 ，文 。x"` becomes `"中，文。x"`, and the three-boundary paragraph
`"a中a中"` becomes `"a 中 a 中"`. -/
theorem claim_C7 :
    (∀ l : List Char, '\n' ∉ l →
      wechatPara l =
        spaceEverywhere isCjk isLatin
          (spaceEverywhere isLatin isCjk (stripFwWs none l))) ∧
    (cleanFormat wechatOnly "hello世界".data).1 = "hello 世界".data ∧
    (cleanFormat wechatOnly "世界hello".data).1 = "世界 hello".data ∧
    (cleanFormat wechatOnly "中 ，文".data).1 = "中，文".data ∧
    (cleanFormat wechatOnly "中 ，文 。x".data).1 = "中，文。x".data ∧
    (cleanFormat wechatOnly "a中a中".data).1 = "a 中 a 中".data := by
  refine ⟨?_, by decide, by decide, by decide, by decide, by decide⟩
  intro l hnl
  rw [wechatPara_eq_passes hnl]
  unfold cjkSpace1 cjkSpace2
  rw [spacePass_eq_everywhere isLatin isCjk (fun c => cjk_not_latin) _]
  rw [spacePass_eq_everywhere isCjk isLatin (fun c => latin_not_cjk) _]
  rw [wechatPunct_eq_strip]

/-- C7 witness: the refinement conjunct at the concrete paragraph
`"a中 ，b中"`, which has one mark and three Latin/CJK boundaries. -/
theorem claim_C7_witness :
    ('\n' ∉ ("a中 ，b中".data)) ∧
    wechatPara ("a中 ，b中".data) =
      spaceEverywhere isCjk isLatin
        (spaceEverywhere isLatin isCjk (stripFwWs none ("a中 ，b中".data))) :=
  ⟨by decide, claim_C7.1 ("a中 ，b中".data) (by decide)⟩

end FormatCleaner
